import Mathlib

set_option maxRecDepth 100000

/-!
Verification development for the persistent message buffer and its
analytics surface (`persistent_buffer.py`, `buffer_analytics.py`).

The embedding works over explicit state values: the SQLite `messages` and
`failed_messages` tables become lists of records, timestamps are seconds
(`Nat`) since an arbitrary epoch, and each buffer method becomes a pure
state-transition function translated line by line from the source.
Message payloads are modelled by `PyVal`, a deep embedding of the
JSON-serialisable Python values the code stores, together with executable
models of `json.dumps` / `json.loads` as the code uses them on the
`value` TEXT column.
-/

namespace Bridge

/-! ## Python values and the JSON codec (`json.dumps` / `json.loads`)

`PyVal` models the Python values a message's `value` field can hold:
`None`, booleans, ints, floats (as exact decimals `m / 10^e`, plus the
non-finite `NaN` / `Infinity` values Python's json module also accepts),
strings, lists and dicts.  Lists and dicts are mutual inductives rather
than nested `List`s so that every function below is structurally
recursive and reduces definitionally. -/

mutual

inductive PyVal where
  | null
  | bool (b : Bool)
  | int (n : Int)
  | num (m : Int) (e : Nat)
  | nan
  | inf (neg : Bool)
  | str (s : String)
  | arr (elems : PyList)
  | obj (entries : PyMembers)

inductive PyList where
  | nil
  | cons (head : PyVal) (tail : PyList)

inductive PyMembers where
  | nil
  | cons (key : String) (val : PyVal) (tail : PyMembers)

end

/-- Decimal digit character for a digit `d < 10`. -/
def decDigit (d : Nat) : Char := Char.ofNat (48 + d)

/-- Decimal digits of `n`, most significant first; fuel-indexed so it is
structurally recursive (`fuel = n` suffices since `n / 10 < n`). -/
def natDigitsGo : Nat → Nat → List Char
  | 0, _ => []
  | f + 1, n => if n = 0 then [] else natDigitsGo f (n / 10) ++ [decDigit (n % 10)]

/-- Decimal rendering of a natural number, as Python prints it. -/
def natDigits (n : Nat) : List Char :=
  if n = 0 then ['0'] else natDigitsGo n n

/-- Decimal rendering of an integer, as Python prints it. -/
def intChars (n : Int) : List Char :=
  if n < 0 then '-' :: natDigits n.natAbs else natDigits n.natAbs

/-- Rendering of the non-negative decimal `m / 10^e` with exactly `e`
digits after the point (`e = 0` renders like Python's `float` repr of an
integral float, with a trailing `.0`). -/
def numCharsAbs (m : Nat) (e : Nat) : List Char :=
  if e = 0 then natDigits m ++ ['.', '0']
  else
    let ds := natDigits m
    let padded := List.replicate (e + 1 - ds.length) '0' ++ ds
    padded.take (padded.length - e) ++ '.' :: padded.drop (padded.length - e)

/-- One character of a JSON string literal under Python's `json.dumps`:
only the quote and the backslash need escaping for the character range
the development works with. -/
def escChar (c : Char) : List Char :=
  if c = '"' then ['\\', '"']
  else if c = '\\' then ['\\', '\\']
  else [c]

/-- A JSON string literal (quotes included) for the character list `cs`. -/
def escChars : List Char → List Char
  | [] => ['"']
  | c :: cs => escChar c ++ escChars cs

/-- A JSON string literal (quotes included) for `s`. -/
def escString (s : String) : List Char := '"' :: escChars s.data

mutual

/-- `json.dumps` with Python's default separators (`", "` and `": "`),
producing the exact TEXT the buffer stores in the `value` column. -/
def dumps : PyVal → List Char
  | .null => 'n' :: 'u' :: 'l' :: 'l' :: []
  | .bool true => 't' :: 'r' :: 'u' :: 'e' :: []
  | .bool false => 'f' :: 'a' :: 'l' :: 's' :: 'e' :: []
  | .int n => intChars n
  | .num m e => (if m < 0 then ['-'] else []) ++ numCharsAbs m.natAbs e
  | .nan => 'N' :: 'a' :: 'N' :: []
  | .inf false => 'I' :: 'n' :: 'f' :: 'i' :: 'n' :: 'i' :: 't' :: 'y' :: []
  | .inf true => '-' :: 'I' :: 'n' :: 'f' :: 'i' :: 'n' :: 'i' :: 't' :: 'y' :: []
  | .str s => escString s
  | .arr xs => '[' :: dumpsArr xs ++ [']']
  | .obj kvs => '\x7b' :: dumpsObj kvs ++ ['\x7d']

/-- The element list of a JSON array, first element unprefixed. -/
def dumpsArr : PyList → List Char
  | .nil => []
  | .cons x xs => dumps x ++ dumpsArrRest xs

/-- Remaining array elements, each preceded by Python's `", "`. -/
def dumpsArrRest : PyList → List Char
  | .nil => []
  | .cons x xs => ',' :: ' ' :: (dumps x ++ dumpsArrRest xs)

/-- The member list of a JSON object, first member unprefixed. -/
def dumpsObj : PyMembers → List Char
  | .nil => []
  | .cons k v kvs => escString k ++ ':' :: ' ' :: (dumps v ++ dumpsObjRest kvs)

/-- Remaining object members, each preceded by Python's `", "`. -/
def dumpsObjRest : PyMembers → List Char
  | .nil => []
  | .cons k v kvs => ',' :: ' ' :: (escString k ++ ':' :: ' ' :: (dumps v ++ dumpsObjRest kvs))

end

/-- JSON whitespace. -/
def isWs (c : Char) : Bool := c = ' ' || c = '\t' || c = '\n' || c = '\r'

/-- Drop leading JSON whitespace. -/
def skipWs : List Char → List Char
  | [] => []
  | c :: cs => if isWs c then skipWs cs else c :: cs

/-- Is `c` a decimal digit? -/
def isDigitCh (c : Char) : Bool := 48 ≤ c.toNat && c.toNat ≤ 57

/-- Numeric value of a digit character. -/
def digitVal (c : Char) : Nat := c.toNat - 48

/-- Split off the longest leading run of decimal digits. -/
def takeDigits : List Char → List Char × List Char
  | [] => ([], [])
  | c :: cs =>
    if isDigitCh c then
      let p := takeDigits cs
      (c :: p.1, p.2)
    else ([], c :: cs)

/-- The natural number a most-significant-first digit run denotes. -/
def parseNatDigits (ds : List Char) : Nat :=
  ds.foldl (fun a c => a * 10 + digitVal c) 0

/-- Value of a hexadecimal digit character, if it is one. -/
def hexVal (c : Char) : Option Nat :=
  if 48 ≤ c.toNat ∧ c.toNat ≤ 57 then some (c.toNat - 48)
  else if 97 ≤ c.toNat ∧ c.toNat ≤ 102 then some (c.toNat - 87)
  else if 65 ≤ c.toNat ∧ c.toNat ≤ 70 then some (c.toNat - 55)
  else none

/-- Match the literal characters `ls` at the head of the input. -/
def dropLit : List Char → List Char → Option (List Char)
  | [], cs => some cs
  | _ :: _, [] => none
  | l :: ls, c :: cs => if c = l then dropLit ls cs else none

/-- Parse the body of a JSON string literal (the opening quote already
consumed), handling the escape sequences Python's `json.loads` accepts;
raw control characters are rejected as in strict-mode `json.loads`. -/
def parseStringBody : List Char → Option (List Char × List Char)
  | [] => none
  | c :: rest =>
    if c = '"' then some ([], rest)
    else if c = '\\' then
      match rest with
      | [] => none
      | c2 :: r =>
        if c2 = '"' then (parseStringBody r).map fun p => ('"' :: p.1, p.2)
        else if c2 = '\\' then (parseStringBody r).map fun p => ('\\' :: p.1, p.2)
        else if c2 = '/' then (parseStringBody r).map fun p => ('/' :: p.1, p.2)
        else if c2 = 'b' then (parseStringBody r).map fun p => (Char.ofNat 8 :: p.1, p.2)
        else if c2 = 'f' then (parseStringBody r).map fun p => (Char.ofNat 12 :: p.1, p.2)
        else if c2 = 'n' then (parseStringBody r).map fun p => ('\n' :: p.1, p.2)
        else if c2 = 'r' then (parseStringBody r).map fun p => (Char.ofNat 13 :: p.1, p.2)
        else if c2 = 't' then (parseStringBody r).map fun p => ('\t' :: p.1, p.2)
        else if c2 = 'u' then
          match r with
          | h1 :: h2 :: h3 :: h4 :: r2 =>
            match hexVal h1, hexVal h2, hexVal h3, hexVal h4 with
            | some a, some b, some c3, some d =>
              (parseStringBody r2).map fun p =>
                (Char.ofNat (((a * 16 + b) * 16 + c3) * 16 + d) :: p.1, p.2)
            | _, _, _, _ => none
          | _ => none
        else none
    else if c.toNat < 32 then none
    else (parseStringBody rest).map fun p => (c :: p.1, p.2)

/-- Build the numeric `PyVal` for sign `neg`, integer digits `ids`,
fraction digits `fs` and decimal exponent `k`: an `int` when there is no
fraction and no exponent is involved is built by the callers; here the
float value `± digits(ids ++ fs) · 10^(k - |fs|)` is normalised into the
`num m e` form (`m / 10^e`). -/
def mkNum (neg : Bool) (ids fs : List Char) (k : Int) : PyVal :=
  let m0 : Nat := parseNatDigits (ids ++ fs)
  let e0 : Int := fs.length
  let m : Nat := if e0 ≤ k then m0 * 10 ^ (k - e0).toNat else m0
  let e : Nat := if e0 ≤ k then 0 else (e0 - k).toNat
  .num (if neg then -(m : Int) else (m : Int)) e

/-- Finish a float literal whose exponent digits start at `cs`. -/
def parseExpDigits (neg : Bool) (ids fs : List Char) (negExp : Bool) (cs : List Char) :
    Option (PyVal × List Char) :=
  let p := takeDigits cs
  if p.1 = [] then none
  else some (mkNum neg ids fs
    (if negExp then -(parseNatDigits p.1 : Int) else (parseNatDigits p.1 : Int)), p.2)

/-- Parse an optional exponent part and finish a float literal. -/
def parseNumExp (neg : Bool) (ids fs : List Char) : List Char → Option (PyVal × List Char)
  | [] => some (mkNum neg ids fs 0, [])
  | c :: rest =>
    if c = 'e' ∨ c = 'E' then
      match rest with
      | '-' :: r2 => parseExpDigits neg ids fs true r2
      | '+' :: r2 => parseExpDigits neg ids fs false r2
      | r2 => parseExpDigits neg ids fs false r2
    else some (mkNum neg ids fs 0, c :: rest)

/-- After the integer digits: an optional fraction, then an optional
exponent; with neither, the literal is a Python `int`. -/
def parseNumRest (neg : Bool) (ids : List Char) : List Char → Option (PyVal × List Char)
  | [] =>
    some (.int (if neg then -(parseNatDigits ids : Int) else (parseNatDigits ids : Int)), [])
  | c :: rest =>
    if c = '.' then
      (fun p => if p.1 = [] then none else parseNumExp neg ids p.1 p.2) (takeDigits rest)
    else if c = 'e' ∨ c = 'E' then parseNumExp neg ids [] (c :: rest)
    else
      some (.int (if neg then -(parseNatDigits ids : Int) else (parseNatDigits ids : Int)),
        c :: rest)

/-- Parse a number after an optional leading `-` (already consumed,
recorded in `neg`).  A leading `0` ends the integer-digit run, per the
JSON grammar. -/
def parseNumAfterSign (neg : Bool) : List Char → Option (PyVal × List Char)
  | [] => none
  | c :: rest =>
    if c = '0' then parseNumRest neg ['0'] rest
    else
      (fun p => if p.1 = [] then none else parseNumRest neg p.1 p.2) (takeDigits (c :: rest))

mutual

/-- Fuel-indexed recursive-descent parser for a JSON value, modelling
Python's `json.loads` (including its `NaN` / `Infinity` extensions).
Leading whitespace is the caller's business. -/
def parseVal : Nat → List Char → Option (PyVal × List Char)
  | 0, _ => none
  | _ + 1, [] => none
  | f + 1, c :: cs =>
    if c = 'n' then (dropLit ['u', 'l', 'l'] cs).map fun r => (.null, r)
    else if c = 't' then (dropLit ['r', 'u', 'e'] cs).map fun r => (.bool true, r)
    else if c = 'f' then (dropLit ['a', 'l', 's', 'e'] cs).map fun r => (.bool false, r)
    else if c = 'N' then (dropLit ['a', 'N'] cs).map fun r => (.nan, r)
    else if c = 'I' then
      (dropLit ['n', 'f', 'i', 'n', 'i', 't', 'y'] cs).map fun r => (.inf false, r)
    else if c = '"' then
      (parseStringBody cs).map fun p => (.str (String.mk p.1), p.2)
    else if c = '-' then
      match cs with
      | [] => none
      | c2 :: cs2 =>
        if c2 = 'I' then
          (dropLit ['n', 'f', 'i', 'n', 'i', 't', 'y'] cs2).map fun r => (.inf true, r)
        else parseNumAfterSign true (c2 :: cs2)
    else if isDigitCh c then parseNumAfterSign false (c :: cs)
    else if c = '[' then
      match skipWs cs with
      | [] => none
      | c2 :: r2 =>
        if c2 = ']' then some (.arr .nil, r2)
        else (parseElems f (c2 :: r2)).map fun p => (.arr p.1, p.2)
    else if c = '\x7b' then
      match skipWs cs with
      | [] => none
      | c2 :: r2 =>
        if c2 = '\x7d' then some (.obj .nil, r2)
        else (parseMembers f (c2 :: r2)).map fun p => (.obj p.1, p.2)
    else none

/-- The element list of a non-empty JSON array, consuming the closing
bracket. -/
def parseElems : Nat → List Char → Option (PyList × List Char)
  | 0, _ => none
  | f + 1, cs =>
    match parseVal f cs with
    | none => none
    | some (v, r) =>
      match skipWs r with
      | ',' :: r2 => (parseElems f (skipWs r2)).map fun p => (.cons v p.1, p.2)
      | ']' :: r2 => some (.cons v .nil, r2)
      | _ => none

/-- The member list of a non-empty JSON object, consuming the closing
brace. -/
def parseMembers : Nat → List Char → Option (PyMembers × List Char)
  | 0, _ => none
  | f + 1, cs =>
    match cs with
    | '"' :: cs2 =>
      match parseStringBody cs2 with
      | none => none
      | some (k, r) =>
        match skipWs r with
        | ':' :: r2 =>
          match parseVal f (skipWs r2) with
          | none => none
          | some (v, r3) =>
            match skipWs r3 with
            | ',' :: r4 => (parseMembers f (skipWs r4)).map fun p => (.cons (String.mk k) v p.1, p.2)
            | '\x7d' :: r4 => some (.cons (String.mk k) v .nil, r4)
            | _ => none
        | _ => none
    | _ => none

end

/-- `json.loads`: parse a complete document, allowing surrounding
whitespace, rejecting trailing data. -/
def loads (s : String) : Option PyVal :=
  let cs := skipWs s.data
  match parseVal (cs.length + 1) cs with
  | some (v, rest) => if skipWs rest = [] then some v else none
  | none => none

/-- `dumps` as a `String`. -/
def dumpsStr (v : PyVal) : String := String.mk (dumps v)

/-! ## The persistent buffer (`persistent_buffer.py`)

The SQLite store becomes an explicit state: the `messages` and
`failed_messages` tables are lists of records, `next_id` models the
AUTOINCREMENT key, and the in-memory `self.stats` counters ride along.
Timestamps are seconds (`Nat`); `CURRENT_TIMESTAMP` / `datetime.now()`
become an explicit `now` argument.  Each method of `PersistentBuffer`
becomes a pure function from state (and `now`) to state and result. -/

/-- The `MessageStatus` enum. -/
inductive MessageStatus where
  | pending
  | processing
  | completed
  | failed
  | expired
deriving DecidableEq, Repr

/-- A row of the `messages` table. -/
structure Row where
  id : Nat
  source : String
  destination : String
  topic_or_node : String
  value : String
  data_type : String
  mapping_id : Option String
  status : MessageStatus
  priority : Nat
  retry_count : Nat
  max_retries : Nat
  created_at : Nat
  processed_at : Option Nat
  expire_at : Nat
  error_message : Option String
  metadata : Option String
deriving DecidableEq, Repr

/-- A row of the dead-letter table `failed_messages`. -/
structure FailedRow where
  original_id : Nat
  source : String
  destination : String
  topic_or_node : String
  value : String
  error_message : Option String
  failed_at : Nat
  retry_count : Nat
  metadata : Option String
deriving DecidableEq, Repr

/-- The in-memory `self.stats` runtime counters. -/
structure RuntimeStats where
  messages_added : Nat
  messages_processed : Nat
  messages_failed : Nat
  messages_expired : Nat
deriving DecidableEq, Repr

/-- The whole durable + in-memory state of one `PersistentBuffer`. -/
structure BufferState where
  messages : List Row
  failed_messages : List FailedRow
  next_id : Nat
  stats : RuntimeStats
  max_size : Nat
  ttl_minutes : Nat
deriving DecidableEq, Repr

/-- The `BufferedMessage` dataclass (defaults as in the source); `value`
is a Python value, encoded/decoded at the store boundary. -/
structure BufferedMessage where
  id : Option Nat := none
  source : String := ""
  destination : String := ""
  topic_or_node : String := ""
  value : PyVal := .null
  data_type : String := ""
  mapping_id : Option String := none
  status : MessageStatus := .pending
  priority : Nat := 1
  retry_count : Nat := 0
  max_retries : Nat := 3
  created_at : Option Nat := none
  processed_at : Option Nat := none
  expire_at : Option Nat := none
  error_message : Option String := none
  metadata : Option String := none

/-- Line 217: `json.dumps(message.value) if not isinstance(message.value,
str) else message.value` — a string payload is stored raw, anything else
is JSON-encoded. -/
def encode_value : PyVal → String
  | .str s => s
  | v => dumpsStr v

/-- Lines 541–544 of `_row_to_message`: an empty TEXT decodes to `None`;
otherwise `json.loads` is tried and on decode error the raw string is
kept. -/
def decode_value (s : String) : PyVal :=
  if s = "" then .null
  else
    match loads s with
    | some v => v
    | none => .str s

/-- Status is `pending` or `processing` (the statuses `get_pending_count`
counts). -/
def isPendingOrProcessing (r : Row) : Bool :=
  r.status = .pending || r.status = .processing

/-- `get_pending_count` (lines 470–486): `COUNT(*) WHERE status IN
('pending', 'processing')`. -/
def get_pending_count (st : BufferState) : Nat :=
  st.messages.countP isPendingOrProcessing

/-- `ORDER BY processed_at ASC` key for the overflow deletion; SQLite
sorts NULLs first in ascending order. -/
def processedAtLE (a b : Row) : Prop :=
  match a.processed_at, b.processed_at with
  | none, _ => True
  | some _, none => False
  | some x, some y => x ≤ y

instance : DecidableRel processedAtLE := fun a b => by
  unfold processedAtLE
  match a.processed_at, b.processed_at with
  | none, _ => exact inferInstanceAs (Decidable True)
  | some _, none => exact inferInstanceAs (Decidable False)
  | some x, some y => exact inferInstanceAs (Decidable (x ≤ y))

instance : IsTotal Row processedAtLE where
  total a b := by
    unfold processedAtLE
    match a.processed_at, b.processed_at with
    | none, _ => exact Or.inl trivial
    | some _, none => exact Or.inr trivial
    | some x, some y => exact Nat.le_total x y

instance : IsTrans Row processedAtLE where
  trans a b c hab hbc := by
    unfold processedAtLE at *
    match ha : a.processed_at, hb : b.processed_at, hc : c.processed_at with
    | none, _, _ => trivial
    | some x, none, _ => simp [ha, hb] at hab
    | some x, some y, none => simp [hb, hc] at hbc
    | some x, some y, some z =>
      simp only [ha, hb, hc] at *
      exact Nat.le_trans hab hbc

/-- `_handle_buffer_overflow` (lines 570–599): delete the up-to-100
oldest completed rows (`ORDER BY processed_at ASC LIMIT 100`); if that
removed fewer than 50 rows, additionally delete up to 100 rows whose
`expire_at` has already passed (any status). -/
def handle_buffer_overflow (now : Nat) (st : BufferState) : BufferState :=
  let doomed1 := (((st.messages.filter fun r => r.status = .completed).insertionSort
      processedAtLE).take 100).map Row.id
  let msgs1 := st.messages.filter fun r => decide (r.id ∉ doomed1)
  let deleted1 := st.messages.length - msgs1.length
  let msgs2 :=
    if deleted1 < 50 then
      let doomed2 := ((msgs1.filter fun r => r.expire_at < now).take 100).map Row.id
      msgs1.filter fun r => decide (r.id ∉ doomed2)
    else msgs1
  { st with messages := msgs2 }

/-- `add_message` (lines 191–253): when the pending count has reached
`max_size` the overflow handler runs first; then the row is inserted
(`created_at` / `expire_at` defaulted from `now` and the TTL), the
message id is the fresh AUTOINCREMENT key, and `messages_added` is
bumped.  There is no capacity re-test: the insert always happens. -/
def add_message (now : Nat) (msg : BufferedMessage) (st : BufferState) :
    BufferState × Option Nat :=
  let st := if st.max_size ≤ get_pending_count st then handle_buffer_overflow now st else st
  let row : Row :=
    { id := st.next_id
      source := msg.source
      destination := msg.destination
      topic_or_node := msg.topic_or_node
      value := encode_value msg.value
      data_type := msg.data_type
      mapping_id := msg.mapping_id
      status := msg.status
      priority := msg.priority
      retry_count := msg.retry_count
      max_retries := msg.max_retries
      created_at := msg.created_at.getD now
      processed_at := none
      expire_at := msg.expire_at.getD (now + 60 * st.ttl_minutes)
      error_message := none
      metadata := msg.metadata }
  ({ st with
      messages := st.messages ++ [row]
      next_id := st.next_id + 1
      stats := { st.stats with messages_added := st.stats.messages_added + 1 } },
    some st.next_id)

/-- The WHERE clause of the lease query (lines 331–336): `status =
'pending' AND expire_at > now AND retry_count < max_retries`. -/
def leasable (now : Nat) (r : Row) : Bool :=
  r.status = .pending && now < r.expire_at && r.retry_count < r.max_retries

/-- The optional `source` / `destination` filters of the lease query. -/
def matchesFilter (source destination : Option String) (r : Row) : Bool :=
  (match source with | none => true | some s => r.source = s) &&
  (match destination with | none => true | some d => r.destination = d)

/-- `ORDER BY priority DESC, created_at ASC`. -/
def leaseOrder (a b : Row) : Prop :=
  b.priority < a.priority ∨ (a.priority = b.priority ∧ a.created_at ≤ b.created_at)

instance : DecidableRel leaseOrder := fun a b => by
  unfold leaseOrder; infer_instance

instance : IsTotal Row leaseOrder where
  total a b := by
    unfold leaseOrder
    rcases Nat.lt_trichotomy a.priority b.priority with h | h | h
    · exact Or.inr (Or.inl h)
    · rcases Nat.le_total a.created_at b.created_at with h2 | h2
      · exact Or.inl (Or.inr ⟨h, h2⟩)
      · exact Or.inr (Or.inr ⟨h.symm, h2⟩)
    · exact Or.inl (Or.inl h)

instance : IsTrans Row leaseOrder where
  trans a b c hab hbc := by
    unfold leaseOrder at *
    rcases hab with h1 | ⟨e1, l1⟩
    · rcases hbc with h2 | ⟨e2, l2⟩
      · exact Or.inl (Nat.lt_trans h2 h1)
      · exact Or.inl (e2 ▸ h1)
    · rcases hbc with h2 | ⟨e2, l2⟩
      · exact Or.inl (e1 ▸ h2)
      · exact Or.inr ⟨e1.trans e2, Nat.le_trans l1 l2⟩

/-- `_row_to_message` (lines 539–568): decode the stored TEXT back into
a `BufferedMessage`. -/
def row_to_message (r : Row) : BufferedMessage :=
  { id := some r.id
    source := r.source
    destination := r.destination
    topic_or_node := r.topic_or_node
    value := decode_value r.value
    data_type := r.data_type
    mapping_id := r.mapping_id
    status := r.status
    priority := r.priority
    retry_count := r.retry_count
    max_retries := r.max_retries
    created_at := some r.created_at
    processed_at := r.processed_at
    expire_at := some r.expire_at
    error_message := r.error_message
    metadata := r.metadata }

/-- `get_pending_messages` (lines 312–368): select up to `limit` leasable
rows in `ORDER BY priority DESC, created_at ASC`, mark exactly those rows
`processing`, and return them decoded (the returned copies still show the
status the SELECT saw). -/
def get_pending_messages (now : Nat) (limit : Nat) (source destination : Option String)
    (st : BufferState) : BufferState × List BufferedMessage :=
  let sel := (((st.messages.filter fun r =>
      leasable now r && matchesFilter source destination r).insertionSort
      leaseOrder).take limit)
  let ids := sel.map Row.id
  ({ st with messages := st.messages.map fun r =>
      if r.id ∈ ids then { r with status := .processing } else r },
    sel.map row_to_message)

/-- `mark_completed` (lines 370–402): `UPDATE messages SET status =
'completed', processed_at = now WHERE id = ?` — no guard on the current
status; `messages_processed` is bumped when a row was hit. -/
def mark_completed (now : Nat) (message_id : Nat) (st : BufferState) :
    BufferState × Bool :=
  let hit := 0 < st.messages.countP fun r => r.id = message_id
  ({ st with
      messages := st.messages.map fun r =>
        if r.id = message_id then { r with status := .completed, processed_at := some now }
        else r
      stats :=
        if hit then { st.stats with messages_processed := st.stats.messages_processed + 1 }
        else st.stats },
    hit)

/-- `mark_failed` (lines 404–468): read the row, increment its retry
count; at `retry_count ≥ max_retries` insert a dead-letter row and set
`status = 'failed'`, otherwise set `status = 'pending'`; in both cases
write back the new retry count and error message.  No guard on the
current status. -/
def mark_failed (now : Nat) (message_id : Nat) (error_message : Option String)
    (st : BufferState) : BufferState × Bool :=
  match st.messages.find? fun r => r.id = message_id with
  | none => (st, false)
  | some row =>
    let rc := row.retry_count + 1
    let dead := row.max_retries ≤ rc
    let st1 :=
      if dead then
        { st with
            failed_messages := st.failed_messages ++
              [{ original_id := message_id
                 source := row.source
                 destination := row.destination
                 topic_or_node := row.topic_or_node
                 value := row.value
                 error_message := error_message
                 failed_at := now
                 retry_count := rc
                 metadata := row.metadata }]
            stats := { st.stats with messages_failed := st.stats.messages_failed + 1 } }
      else st
    ({ st1 with
        messages := st1.messages.map fun r =>
          if r.id = message_id then
            { r with
                status := if dead then .failed else .pending
                retry_count := rc
                error_message := error_message }
          else r },
      true)

/-- `_cleanup` (lines 612–660), the sweep: rows past their `expire_at`
(strictly, `expire_at < CURRENT_TIMESTAMP`) that are pending/processing
become `expired` and are counted; then completed rows older than one day
(by `processed_at`) and expired rows older than seven days (by
`expire_at`) are deleted.  Age comparisons are written additively so Nat
subtraction cannot truncate. -/
def cleanup (now : Nat) (st : BufferState) : BufferState :=
  let toExpire := fun (r : Row) =>
    r.expire_at < now && (r.status = .pending || r.status = .processing)
  let expired_count := st.messages.countP toExpire
  let msgs1 := st.messages.map fun r =>
    if toExpire r then { r with status := .expired } else r
  let msgs2 := msgs1.filter fun r =>
    !(r.status = .completed &&
        match r.processed_at with
        | some p => p + 86400 < now
        | none => false)
  let msgs3 := msgs2.filter fun r =>
    !(r.status = .expired && r.expire_at + 604800 < now)
  { st with
      messages := msgs3
      stats := { st.stats with messages_expired := st.stats.messages_expired + expired_count } }

/-- `reset_processing_messages` (lines 662–683): bulk `processing →
pending`. -/
def reset_processing_messages (st : BufferState) : BufferState :=
  { st with messages := st.messages.map fun r =>
      if r.status = .processing then { r with status := .pending } else r }

/-- The dictionary `get_statistics` (lines 488–537) returns. -/
structure Statistics where
  buffer_size : Nat
  max_size : Nat
  status_counts : MessageStatus → Nat
  route_counts : List ((String × String) × Nat)
  oldest_pending : Option Nat
  runtime_stats : RuntimeStats
  utilization_percent : ℚ

/-- `get_statistics`: counts by status, per-route counts of
pending/processing rows, oldest pending `created_at`, the runtime
counters, and `buffer_size` / `utilization_percent` both computed from
`get_pending_count`. -/
def get_statistics (st : BufferState) : Statistics :=
  let pp := st.messages.filter isPendingOrProcessing
  { buffer_size := get_pending_count st
    max_size := st.max_size
    status_counts := fun s => st.messages.countP fun r => r.status = s
    route_counts := ((pp.map fun r => (r.source, r.destination)).dedup).map fun k =>
      (k, pp.countP fun r => (r.source, r.destination) = k)
    oldest_pending := ((st.messages.filter fun r => r.status = .pending).map
      Row.created_at).min?
    runtime_stats := st.stats
    utilization_percent := (get_pending_count st : ℚ) / (st.max_size : ℚ) * 100 }

/-! ## Analytics (`buffer_analytics.py`)

The analytics read the same `messages` table.  Times here are hours
(`Nat`), since `predict_load` buckets by hour; day 0 (hours 0–23) is a
Thursday, as at the Unix epoch, which fixes the two day-of-week
conventions below. -/

/-- Hour of day of an hour-resolution timestamp. -/
def hourOfDay (t : Nat) : Nat := t % 24

/-- Day number of an hour-resolution timestamp. -/
def dayIndex (t : Nat) : Nat := t / 24

/-- SQLite `strftime('%w', ·)`: day of week with Sunday = 0 (day 0 is a
Thursday, hence the offset 4). -/
def sqlDow (t : Nat) : Nat := (dayIndex t + 4) % 7

/-- Python `datetime.weekday()`: day of week with Monday = 0 (day 0 is a
Thursday, hence the offset 3). -/
def pyWeekday (t : Nat) : Nat := (dayIndex t + 3) % 7

/-- An anomaly record as `detect_anomalies` emits for a congested route
(only the fields the route-congestion branch fills). -/
structure RouteAnomaly where
  route_source : String
  route_destination : String
  severity : String
  count : Nat
deriving DecidableEq, Repr

/-- `count ≥` ordering for the route query's `ORDER BY count DESC`. -/
def countGE (a b : (String × String) × Nat) : Prop := b.2 ≤ a.2

instance : DecidableRel countGE := fun a b => by unfold countGE; infer_instance

instance : IsTotal ((String × String) × Nat) countGE where
  total a b := Nat.le_total b.2 a.2

instance : IsTrans ((String × String) × Nat) countGE where
  trans _ _ _ hab hbc := Nat.le_trans hbc hab

/-- The route query of `detect_anomalies` (lines 214–224): per-route
counts of pending/processing rows, `HAVING count > 100`, `ORDER BY count
DESC`. -/
def routes_over_100 (msgs : List Row) : List ((String × String) × Nat) :=
  let pp := msgs.filter isPendingOrProcessing
  ((((pp.map fun r => (r.source, r.destination)).dedup).map fun k =>
      (k, pp.countP fun r => (r.source, r.destination) = k)).filter fun g =>
        100 < g.2).insertionSort countGE

/-- The route-congestion branch of `detect_anomalies` (lines 226–235):
of the routes the query returned, only those with `count > 500` produce
an anomaly, always with severity `"medium"`. -/
def route_congestion_anomalies (msgs : List Row) : List RouteAnomaly :=
  (routes_over_100 msgs).filterMap fun g =>
    if 500 < g.2 then
      some { route_source := g.1.1
             route_destination := g.1.2
             severity := "medium"
             count := g.2 }
    else none

/-- The 30-day history window of `predict_load`'s first query
(`created_at > datetime('now', '-30 days')`), over the `created_at`
hour-stamps of the `messages` rows. -/
def historyWindow (now : Nat) (history : List Nat) : List Nat :=
  history.filter fun t => now - 30 * 24 < t

/-- The distinct `(strftime('%w'), strftime('%H'))` keys the 30-day
GROUP BY returns. -/
def bucketKeys (now : Nat) (history : List Nat) : List (Nat × Nat) :=
  ((historyWindow now history).map fun t => (sqlDow t, hourOfDay t)).dedup

/-- The aggregate `COUNT(*)` of one GROUP BY key. -/
def bucketCount (now : Nat) (history : List Nat) (k : Nat × Nat) : Nat :=
  (historyWindow now history).countP fun t => (sqlDow t, hourOfDay t) = k

/-- One prediction record (`int()` already applied to the numeric
fields, as in the source). -/
structure Prediction where
  time : Nat
  predicted_messages : Nat
  confidence : Nat
  range_min : Nat
  range_max : Nat
deriving DecidableEq, Repr

/-- The fallback branch of `predict_load` (lines 320–339): the average of
the per-hour message counts over the last 7 days (only hours with at
least one row form a group; with no groups SQL AVG is NULL and `or 50`
applies), then `int(avg)`, `int(avg*0.5)`, `int(avg*1.5)` with
confidence 30.  The averages are exact rationals `a / b`; `int()` on a
non-negative value is the floor, i.e. Nat division. -/
def fallback_prediction (now : Nat) (history : List Nat) (ft : Nat) : Prediction :=
  let recent := history.filter fun t => now - 7 * 24 < t
  let a := recent.length
  let b := recent.dedup.length
  if b = 0 then
    { time := ft, predicted_messages := 50, confidence := 30, range_min := 25, range_max := 75 }
  else
    { time := ft
      predicted_messages := a / b
      confidence := 30
      range_min := a / (2 * b)
      range_max := 3 * a / (2 * b) }

/-- One future hour of `predict_load` (lines 302–339).  The lookup key
uses Python's `weekday()` (Monday = 0) against GROUP BY keys built from
SQLite's `%w` (Sunday = 0).  Because the 30-day query GROUPs BY the key,
each key carries exactly one aggregate count, so `mean` is that count,
the `len(values) > 1` guard keeps `stdev` at 0, and `samples = 1`. -/
def predictOne (now : Nat) (history : List Nat) (offset : Nat) : Prediction :=
  let ft := now + offset
  let key := (pyWeekday ft, hourOfDay ft)
  if key ∈ bucketKeys now history then
    let mean := bucketCount now history key
    let samples := 1
    let stdev := 0
    { time := ft
      predicted_messages := mean
      confidence := min 90 (50 + samples * 2)
      range_min := mean - stdev
      range_max := mean + stdev }
  else fallback_prediction now history ft

/-- `predict_load`'s prediction list for the next `next_hours` hours. -/
def predict_load (now : Nat) (next_hours : Nat) (history : List Nat) : List Prediction :=
  (List.range next_hours).map (predictOne now history)

/-- The claim's reading of "the bucket of this hour has history": the
(day-of-week, hour-of-day) bucket taken with one convention on both
sides (SQLite's, which is how the history is bucketed). -/
def claimBucketHasHistory (now : Nat) (history : List Nat) (t : Nat) : Bool :=
  (historyWindow now history).any fun h => sqlDow h = sqlDow t && hourOfDay h = hourOfDay t

/-! ## Derived notions used by the theorems -/

/-- The terminal life-cycle states. -/
def isTerminal (s : MessageStatus) : Prop :=
  s = .completed ∨ s = .failed ∨ s = .expired

instance (s : MessageStatus) : Decidable (isTerminal s) := by
  unfold isTerminal; infer_instance

/-- The row `add_message` inserts (its fields do not depend on the
overflow handler, which touches only `messages`). -/
def newRowOf (now : Nat) (msg : BufferedMessage) (st : BufferState) : Row :=
  { id := st.next_id
    source := msg.source
    destination := msg.destination
    topic_or_node := msg.topic_or_node
    value := encode_value msg.value
    data_type := msg.data_type
    mapping_id := msg.mapping_id
    status := msg.status
    priority := msg.priority
    retry_count := msg.retry_count
    max_retries := msg.max_retries
    created_at := msg.created_at.getD now
    processed_at := none
    expire_at := msg.expire_at.getD (now + 60 * st.ttl_minutes)
    error_message := none
    metadata := msg.metadata }

/-- The dead-letter row `mark_failed` writes when the incremented retry
count of `row` reaches its limit. -/
def deadLetterOf (now : Nat) (e : Option String) (row : Row) : FailedRow :=
  { original_id := row.id
    source := row.source
    destination := row.destination
    topic_or_node := row.topic_or_node
    value := row.value
    error_message := e
    failed_at := now
    retry_count := row.retry_count + 1
    metadata := row.metadata }

/-- `n` consecutive `mark_failed` calls on message `id` (the scenario of
a message whose every processing attempt fails). -/
def failTimes (id : Nat) : Nat → BufferState → BufferState
  | 0, st => st
  | n + 1, st => (mark_failed 0 id none (failTimes id n st)).1

/-- The single message row after `k` failed attempts (fresh at `k = 0`). -/
def c6Row (row : Row) : Nat → Row
  | 0 => row
  | k + 1 =>
    { row with
        retry_count := k + 1
        status := if row.max_retries ≤ k + 1 then .failed else .pending
        error_message := none }

/-- The dead-letter rows accumulated by `n` failed attempts: one per
attempt whose incremented retry count reaches `max_retries`. -/
def c6DLs (row : Row) (n : Nat) : List FailedRow :=
  (List.range n).filterMap fun i =>
    if row.max_retries ≤ i + 1 then some (deadLetterOf 0 none (c6Row row i)) else none

/-! Well-formed payload values for the round-trip property: strings (and
dict keys) of printable ASCII — `json.dumps` escapes exactly the quote
and the backslash there — floats carried with at least one decimal
digit, and no `NaN` (Python's `nan` is not `==` to itself, so it is not
a value the round-trip property can quantify over). -/

/-- Printable ASCII. -/
def okChar (c : Char) : Bool := 32 ≤ c.toNat && c.toNat ≤ 126

/-- A string of printable ASCII. -/
def okStr (s : String) : Bool := s.data.all okChar

mutual

/-- Well-formed payload value (see above). -/
def wfVal : PyVal → Bool
  | .null => true
  | .bool _ => true
  | .int _ => true
  | .num _ e => decide (1 ≤ e)
  | .nan => false
  | .inf _ => true
  | .str s => okStr s
  | .arr xs => wfList xs
  | .obj kvs => wfMembers kvs

/-- All elements well-formed. -/
def wfList : PyList → Bool
  | .nil => true
  | .cons x xs => wfVal x && wfList xs

/-- All keys printable-ASCII and all values well-formed. -/
def wfMembers : PyMembers → Bool
  | .nil => true
  | .cons k v kvs => okStr k && wfVal v && wfMembers kvs

end

/-- What may legally follow a serialised value so that a greedy number
parse does not run into it (a digit, `.`, `e` or `E` would be absorbed
into a preceding number literal). -/
def restOk : List Char → Bool
  | [] => true
  | c :: _ => !(isDigitCh c || c = '.' || c = 'e' || c = 'E')

/-- The input does not start with a digit. -/
def nonDigitStart : List Char → Prop
  | [] => True
  | c :: _ => isDigitCh c = false

/-- The characters a serialised JSON value can start with. -/
def valStart (c : Char) : Bool :=
  c = 'n' || c = 't' || c = 'f' || c = 'N' || c = 'I' || c = '-' ||
    isDigitCh c || c = '"' || c = '[' || c = '\x7b'

/-! ## Concrete states for witnesses and counterexamples -/

/-- A representative pending row. -/
def baseRow : Row :=
  { id := 1
    source := "mqtt"
    destination := "opcua"
    topic_or_node := "sensors/temp"
    value := "1"
    data_type := "Int32"
    mapping_id := none
    status := .pending
    priority := 1
    retry_count := 0
    max_retries := 3
    created_at := 0
    processed_at := none
    expire_at := 1000
    error_message := none
    metadata := none }

/-- A buffer holding just `baseRow`. -/
def baseState : BufferState :=
  { messages := [baseRow]
    failed_messages := []
    next_id := 2
    stats := ⟨0, 0, 0, 0⟩
    max_size := 10
    ttl_minutes := 60 }

/-- An empty buffer. -/
def emptyState : BufferState :=
  { messages := []
    failed_messages := []
    next_id := 1
    stats := ⟨0, 0, 0, 0⟩
    max_size := 10
    ttl_minutes := 60 }

/-- A full buffer (`max_size = 1`, two pending rows, nothing the
overflow policy could delete). -/
def c1State : BufferState :=
  { messages := [baseRow, { baseRow with id := 2, created_at := 1 }]
    failed_messages := []
    next_id := 3
    stats := ⟨0, 0, 0, 0⟩
    max_size := 1
    ttl_minutes := 60 }

/-- A message to enqueue. -/
def c1Msg : BufferedMessage :=
  { source := "mqtt", destination := "opcua", topic_or_node := "sensors/temp",
    value := .int 5, data_type := "Int32" }

/-- A buffer with one completed and one failed row. -/
def c5State : BufferState :=
  { baseState with
      messages := [{ baseRow with status := .completed, processed_at := some 3 },
                   { baseRow with id := 2, status := .failed, retry_count := 3 }] }

/-- A buffer with one fresh row whose `max_retries` is 1. -/
def c6State : BufferState :=
  { baseState with messages := [{ baseRow with max_retries := 1 }] }

/-- A buffer with one pending row expiring at time 100. -/
def c7State : BufferState :=
  { baseState with messages := [{ baseRow with expire_at := 100 }] }

/-- 200 pending rows on the single route mqtt→opcua. -/
def c9Rows : List Row := (List.range 200).map fun i => { baseRow with id := i }

/-- 600 pending rows on the single route mqtt→opcua. -/
def c9Rows600 : List Row := (List.range 600).map fun i => { baseRow with id := i }

/-- A message carrying the string payload `"123"`. -/
def c3Msg : BufferedMessage :=
  { source := "mqtt", destination := "opcua", topic_or_node := "sensors/temp",
    value := .str "123", data_type := "String" }

/-! ## Theorems -/

/-- C10: the pending count is the number of rows whose status is
`pending` or `processing` (not `pending` alone); this combined count is
what `add_message` compares against `max_size` to decide whether the
overflow handler runs, and it is what `get_statistics` reports as
`buffer_size` and uses for `utilization_percent`. -/
theorem claim_C10 :
    (∀ st : BufferState, get_pending_count st =
        (st.messages.filter fun r =>
          decide (r.status = MessageStatus.pending ∨ r.status = MessageStatus.processing)).length) ∧
    (∀ (now : Nat) (msg : BufferedMessage) (st : BufferState),
        (add_message now msg st).1.messages.length =
          (if st.max_size ≤ get_pending_count st
            then (handle_buffer_overflow now st).messages.length
            else st.messages.length) + 1) ∧
    (∀ st : BufferState, (get_statistics st).buffer_size = get_pending_count st) ∧
    (∀ st : BufferState, (get_statistics st).utilization_percent =
        (get_pending_count st : ℚ) / (st.max_size : ℚ) * 100) := by
  refine ⟨?_, ?_, fun st => rfl, fun st => rfl⟩
  · intro st
    rw [get_pending_count, List.countP_eq_length_filter]
    congr 1
    apply List.filter_congr
    intro r _
    simp [isPendingOrProcessing]
  · intro now msg st
    by_cases h : st.max_size ≤ get_pending_count st <;>
      simp [add_message, h]

/-- C9: the code does not report a route-congestion anomaly for a route
with 200 pending messages (the route query's `HAVING count > 100`
notwithstanding, the loop only emits above 500), and above 500 the
severity it emits is `"medium"`, not `"high"`. -/
theorem claim_C9_divergence :
    routes_over_100 c9Rows = [(("mqtt", "opcua"), 200)] ∧
    route_congestion_anomalies c9Rows = [] ∧
    (route_congestion_anomalies c9Rows600).map RouteAnomaly.severity = ["medium"] := by
  exact ⟨by decide, by decide, by decide⟩

/-- C1 (counterexample): on a full buffer that stays full after the
overflow policy (nothing deletable), `add_message` still inserts the new
row and returns its id — the claimed capacity re-test and rejection do
not exist. -/
theorem claim_C1_counterexample :
    c1State.max_size ≤ get_pending_count c1State ∧
    (handle_buffer_overflow 50 c1State).messages = c1State.messages ∧
    (add_message 50 c1Msg c1State).2 = some c1State.next_id ∧
    (add_message 50 c1Msg c1State).1.messages.length = c1State.messages.length + 1 := by
  exact ⟨by decide, by decide, by decide, by decide⟩

/-- C2 (counterexample): with `max_retries = 3`, already the third
`fail` call moves the message to `failed` (writing its dead-letter row),
so the message is not `pending` after each of the first 3 fail calls and
there is no 4th call left to make the transition. -/
theorem claim_C2_counterexample :
    ((failTimes baseRow.id 3 baseState).messages.map Row.status = [.failed]) ∧
    (failTimes baseRow.id 3 baseState).failed_messages.length = 1 ∧
    ((failTimes baseRow.id 2 baseState).messages.map Row.status = [.pending]) := by
  exact ⟨by decide, by decide, by decide⟩

/-- C5 (counterexample): terminal statuses are not absorbing —
`mark_completed` moves a `failed` row to `completed`, and `mark_failed`
moves a `completed` row back to `pending`. -/
theorem claim_C5_counterexample :
    ((mark_completed 9 2 c5State).1.messages.map Row.status =
      [.completed, .completed]) ∧
    ((mark_failed 9 1 (some "boom") c5State).1.messages.map Row.status =
      [.pending, .failed]) := by
  exact ⟨by decide, by decide⟩

/-- C6 (counterexample): two `fail` calls on a message with
`max_retries = 1` leave one `failed` row in `messages` but two rows in
`failed_messages` — the dead-letter record is not written exactly once
for every sequence of fail calls. -/
theorem claim_C6_counterexample :
    ((failTimes baseRow.id 2 c6State).messages.map Row.status = [.failed]) ∧
    (failTimes baseRow.id 2 c6State).failed_messages.length = 2 := by
  exact ⟨by decide, by decide⟩

/-- C7 (counterexample): a pending message whose `expire_at` equals the
sweep time is not expired (the code compares strictly), while one second
past it is. -/
theorem claim_C7_counterexample :
    ((cleanup 100 c7State).messages.map Row.status = [.pending]) ∧
    (cleanup 100 c7State).stats.messages_expired = 0 ∧
    ((cleanup 101 c7State).messages.map Row.status = [.expired]) ∧
    (cleanup 101 c7State).stats.messages_expired = 1 := by
  exact ⟨by decide, by decide, by decide, by decide⟩

/-- C8 (counterexample): hour 250 is a Sunday 10:00 and the history hour
82 (a Sunday 10:00, inside the 30-day window) gives its (day-of-week,
hour-of-day) bucket one sample; yet `predict_load` emits the 7-day
fallback (confidence 30, range from the global average 50), not the
bucketed prediction with confidence `min 90 (50 + 2·1) = 52` and range
`[mean − σ, mean + σ] = [1, 1]` — the lookup key uses Python's Monday-0
weekday against SQLite's Sunday-0 bucket keys. -/
theorem claim_C8_counterexample :
    claimBucketHasHistory 250 [82] 250 = true ∧
    bucketCount 250 [82] (sqlDow 250, hourOfDay 250) = 1 ∧
    predict_load 250 1 [82] =
      [{ time := 250, predicted_messages := 50, confidence := 30,
         range_min := 25, range_max := 75 }] := by
  exact ⟨by decide, by decide, by decide⟩

/-- C3 (counterexample): the string payload `"123"` is stored raw and
decoded by `json.loads` on lease, coming back as the integer 123 — the
value does not round-trip. -/
theorem claim_C3_counterexample :
    ((get_pending_messages 1 10 none none (add_message 0 c3Msg emptyState).1).2.map
      BufferedMessage.value) = [.int 123] ∧
    PyVal.int 123 ≠ PyVal.str "123" := by
  refine ⟨rfl, fun h => PyVal.noConfusion h⟩

/-- `mark_failed` on a buffer holding exactly one message, addressed by
its id: the full state transition. -/
theorem mark_failed_on_singleton (now : Nat) (e : Option String) (row : Row)
    (st : BufferState) (hm : st.messages = [row]) :
    (mark_failed now row.id e st).1 =
      if row.max_retries ≤ row.retry_count + 1 then
        { st with
            messages := [{ row with status := .failed, retry_count := row.retry_count + 1, error_message := e }]
            failed_messages := st.failed_messages ++ [deadLetterOf now e row]
            stats := { st.stats with messages_failed := st.stats.messages_failed + 1 } }
      else
        { st with messages := [{ row with status := .pending, retry_count := row.retry_count + 1, error_message := e }] } := by
  unfold mark_failed
  rw [hm]
  by_cases hd : row.max_retries ≤ row.retry_count + 1 <;>
    simp [List.find?, deadLetterOf, hd, hm]

/-- `failTimes` on a buffer holding exactly one fresh message: after `n`
failed attempts the single row is `c6Row row n` and the dead-letter
table has grown by `c6DLs row n`. -/
theorem failTimes_on_singleton (row : Row) (st : BufferState)
    (hm : st.messages = [row]) (hr : row.retry_count = 0) :
    ∀ n, (failTimes row.id n st).messages = [c6Row row n] ∧
      (failTimes row.id n st).failed_messages = st.failed_messages ++ c6DLs row n := by
  intro n
  induction n with
  | zero => simpa [failTimes, c6Row, c6DLs] using hm
  | succ n ih =>
    obtain ⟨ihm, ihf⟩ := ih
    have hid : (c6Row row n).id = row.id := by cases n <;> rfl
    have hrc : (c6Row row n).retry_count = n := by
      cases n with
      | zero => exact hr
      | succ k => rfl
    have hmr : (c6Row row n).max_retries = row.max_retries := by cases n <;> rfl
    have step := mark_failed_on_singleton 0 none (c6Row row n) (failTimes row.id n st) ihm
    rw [hid] at step
    have hmsgs := congrArg BufferState.messages step
    have hfails := congrArg BufferState.failed_messages step
    rw [apply_ite BufferState.messages] at hmsgs
    rw [apply_ite BufferState.failed_messages] at hfails
    have hdls : c6DLs row (n + 1) =
        c6DLs row n ++ (if row.max_retries ≤ n + 1
          then [deadLetterOf 0 none (c6Row row n)] else []) := by
      unfold c6DLs
      rw [List.range_succ, List.filterMap_append]
      by_cases hd : row.max_retries ≤ n + 1 <;> simp [hd]
    by_cases hd : row.max_retries ≤ n + 1
    · have hc : (c6Row row n).max_retries ≤ (c6Row row n).retry_count + 1 := by
        rw [hrc, hmr]; exact hd
      rw [if_pos hc] at hmsgs hfails
      constructor
      · refine hmsgs.trans ?_
        cases n <;> simp [c6Row, hr, hd]
      · refine hfails.trans ?_
        show (failTimes row.id n st).failed_messages ++ _ = _
        rw [ihf, hdls, if_pos hd, List.append_assoc]
    · have hc : ¬ ((c6Row row n).max_retries ≤ (c6Row row n).retry_count + 1) := by
        rw [hrc, hmr]; exact hd
      rw [if_neg hc] at hmsgs hfails
      constructor
      · refine hmsgs.trans ?_
        cases n <;> simp [c6Row, hr, hd]
      · refine hfails.trans ?_
        show (failTimes row.id n st).failed_messages = _
        rw [ihf, hdls, if_neg hd, List.append_nil]

/-- Length of the accumulated dead-letter list. -/
theorem c6DLs_length (row : Row) : ∀ n,
    (c6DLs row n).length = n - (row.max_retries - 1) := by
  intro n
  induction n with
  | zero => simp [c6DLs]
  | succ n ih =>
    have : c6DLs row (n + 1) = c6DLs row n ++ (if row.max_retries ≤ n + 1
        then [deadLetterOf 0 none (c6Row row n)] else []) := by
      unfold c6DLs
      rw [List.range_succ, List.filterMap_append]
      by_cases hd : row.max_retries ≤ n + 1 <;> simp [hd]
    rw [this, List.length_append, ih]
    by_cases hd : row.max_retries ≤ n + 1 <;> simp [hd] <;> omega

/-- C2 (amended): with `max_retries = 3` and every attempt failing, the
message is `pending` after each of the first two `fail` calls; the third
`fail` call transitions it to `failed` and writes exactly one
dead-letter row, with `retry_count = 3` recorded in both tables. -/
theorem claim_C2_amended (row : Row) (st : BufferState)
    (hm : st.messages = [row]) (hf : st.failed_messages = [])
    (hr : row.retry_count = 0) (hx : row.max_retries = 3) :
    ((failTimes row.id 1 st).messages.map Row.status = [.pending]) ∧
    ((failTimes row.id 2 st).messages.map Row.status = [.pending]) ∧
    ((failTimes row.id 3 st).messages.map Row.status = [.failed]) ∧
    ((failTimes row.id 3 st).failed_messages = [deadLetterOf 0 none (c6Row row 2)]) ∧
    ((failTimes row.id 3 st).messages.map Row.retry_count = [3]) ∧
    ((failTimes row.id 3 st).failed_messages.map FailedRow.retry_count = [3]) := by
  have h1 := failTimes_on_singleton row st hm hr 1
  have h2 := failTimes_on_singleton row st hm hr 2
  have h3 := failTimes_on_singleton row st hm hr 3
  have hdls : c6DLs row 3 = [deadLetterOf 0 none (c6Row row 2)] := by
    have hrange : List.range 3 = [0, 1, 2] := rfl
    unfold c6DLs
    rw [hrange]
    simp [List.filterMap, hx]
  refine ⟨?_, ?_, ?_, ?_, ?_, ?_⟩
  · rw [h1.1]; simp [c6Row, hx]
  · rw [h2.1]; simp [c6Row, hx]
  · rw [h3.1]; simp [c6Row, hx]
  · rw [h3.2, hf, hdls]; rfl
  · rw [h3.1]; simp [c6Row]
  · rw [h3.2, hf, hdls]; simp [deadLetterOf, c6Row]

/-- C2 (witness): the amended claim at the concrete base buffer. -/
theorem claim_C2_witness :
    ((failTimes baseRow.id 1 baseState).messages.map Row.status = [.pending]) ∧
    ((failTimes baseRow.id 2 baseState).messages.map Row.status = [.pending]) ∧
    ((failTimes baseRow.id 3 baseState).messages.map Row.status = [.failed]) ∧
    ((failTimes baseRow.id 3 baseState).failed_messages =
      [deadLetterOf 0 none (c6Row baseRow 2)]) ∧
    ((failTimes baseRow.id 3 baseState).messages.map Row.retry_count = [3]) ∧
    ((failTimes baseRow.id 3 baseState).failed_messages.map FailedRow.retry_count = [3]) :=
  claim_C2_amended baseRow baseState rfl rfl rfl rfl

/-- C6 (amended): `mark_failed` writes one dead-letter row on every call
whose incremented retry count reaches `max_retries`, so after `n` fail
calls on a fresh message there are `n - (max_retries - 1)` dead-letter
rows; exactly one corresponds to the `failed` row precisely when the
fail calls stop at the transition (`n = max_retries`), and each further
call appends another row. -/
theorem claim_C6_amended (row : Row) (st : BufferState) (n : Nat)
    (hm : st.messages = [row]) (hf : st.failed_messages = []) (hr : row.retry_count = 0) :
    (failTimes row.id n st).failed_messages.length = n - (row.max_retries - 1) ∧
    ((failTimes row.id n st).messages.map Row.status) =
      [if n = 0 then row.status
       else if row.max_retries ≤ n then MessageStatus.failed else MessageStatus.pending] ∧
    ((failTimes row.id n st).messages.map Row.retry_count) = [n] ∧
    (n = row.max_retries → 1 ≤ n →
      (failTimes row.id n st).failed_messages.length = 1) := by
  obtain ⟨hmsg, hfail⟩ := failTimes_on_singleton row st hm hr n
  have hlen : (failTimes row.id n st).failed_messages.length = n - (row.max_retries - 1) := by
    rw [hfail, hf, List.nil_append, c6DLs_length]
  refine ⟨hlen, ?_, ?_, ?_⟩
  · rw [hmsg]
    cases n with
    | zero => simp [c6Row]
    | succ k => simp [c6Row]
  · rw [hmsg]
    cases n with
    | zero => simp [c6Row, hr]
    | succ k => simp [c6Row]
  · intro hn h1
    rw [hlen]
    omega

/-- The `messages` list after the overflow handler, with the two
deletion stages spelled out. -/
theorem handle_buffer_overflow_messages (now : Nat) (st : BufferState) :
    (handle_buffer_overflow now st).messages =
      (if st.messages.length -
          (st.messages.filter fun r => decide (r.id ∉
            (((st.messages.filter fun r => r.status = MessageStatus.completed).insertionSort
              processedAtLE).take 100).map Row.id)).length < 50 then
        (st.messages.filter fun r => decide (r.id ∉
            (((st.messages.filter fun r => r.status = MessageStatus.completed).insertionSort
              processedAtLE).take 100).map Row.id)).filter fun r => decide (r.id ∉
          (((st.messages.filter fun r => decide (r.id ∉
              (((st.messages.filter fun r => r.status = MessageStatus.completed).insertionSort
                processedAtLE).take 100).map Row.id)).filter fun r =>
            r.expire_at < now).take 100).map Row.id)
      else
        st.messages.filter fun r => decide (r.id ∉
          (((st.messages.filter fun r => r.status = MessageStatus.completed).insertionSort
            processedAtLE).take 100).map Row.id)) := rfl

/-- C1 (amended): when the pending count has reached `max_size`,
`add_message` runs the overflow policy — which deletes only rows that
are completed or already past their `expire_at` — and then inserts the
new row unconditionally, returning its id; there is no capacity re-test
and no rejection. -/
theorem claim_C1_amended (now : Nat) (msg : BufferedMessage) (st : BufferState)
    (hfull : st.max_size ≤ get_pending_count st)
    (hids : (st.messages.map Row.id).Nodup) :
    (add_message now msg st).1.messages =
      (handle_buffer_overflow now st).messages ++ [newRowOf now msg st] ∧
    (add_message now msg st).2 = some st.next_id ∧
    ∀ r ∈ st.messages, r ∉ (handle_buffer_overflow now st).messages →
      r.status = MessageStatus.completed ∨ r.expire_at < now := by
  refine ⟨?_, ?_, ?_⟩
  · simp only [add_message]
    rw [if_pos hfull]
    rfl
  · simp only [add_message]
    rw [if_pos hfull]
    rfl
  · intro r hr hnot
    rw [handle_buffer_overflow_messages] at hnot
    have hcomp : r ∉ (st.messages.filter fun x => decide (x.id ∉
        (((st.messages.filter fun y => y.status = MessageStatus.completed).insertionSort
          processedAtLE).take 100).map Row.id)) →
        r.status = MessageStatus.completed := by
      intro h1
      have hA : r.id ∈ (((st.messages.filter fun y =>
          y.status = MessageStatus.completed).insertionSort processedAtLE).take 100).map
            Row.id := by
        by_contra hA
        exact h1 (List.mem_filter.mpr ⟨hr, decide_eq_true hA⟩)
      obtain ⟨r2, hr2take, hid2⟩ := List.mem_map.mp hA
      have hr2sort := List.take_subset 100 _ hr2take
      have hr2filter := (List.perm_insertionSort processedAtLE _).subset hr2sort
      obtain ⟨hr2mem, hr2c⟩ := List.mem_filter.mp hr2filter
      have heq : r2 = r := List.inj_on_of_nodup_map hids hr2mem hr hid2
      rw [← heq]
      exact of_decide_eq_true hr2c
    by_cases h50 : st.messages.length -
        (st.messages.filter fun x => decide (x.id ∉
          (((st.messages.filter fun y => y.status = MessageStatus.completed).insertionSort
            processedAtLE).take 100).map Row.id)).length < 50
    · rw [if_pos h50] at hnot
      by_cases h1 : r ∈ st.messages.filter fun x => decide (x.id ∉
          (((st.messages.filter fun y => y.status = MessageStatus.completed).insertionSort
            processedAtLE).take 100).map Row.id)
      · right
        have hB : r.id ∈ (((st.messages.filter fun x => decide (x.id ∉
            (((st.messages.filter fun y => y.status = MessageStatus.completed).insertionSort
              processedAtLE).take 100).map Row.id)).filter fun x =>
            x.expire_at < now).take 100).map Row.id := by
          by_contra hB
          exact hnot (List.mem_filter.mpr ⟨h1, decide_eq_true hB⟩)
        obtain ⟨r2, hr2take, hid2⟩ := List.mem_map.mp hB
        have hr2filter := List.take_subset 100 _ hr2take
        obtain ⟨hr2M1, hr2e⟩ := List.mem_filter.mp hr2filter
        have hr2mem : r2 ∈ st.messages := List.mem_of_mem_filter hr2M1
        have heq : r2 = r := List.inj_on_of_nodup_map hids hr2mem hr hid2
        rw [← heq]
        exact of_decide_eq_true hr2e
      · exact Or.inl (hcomp h1)
    · rw [if_neg h50] at hnot
      exact Or.inl (hcomp hnot)

/-- C1 (witness): the amended claim at the concrete full buffer. -/
theorem claim_C1_witness :
    (add_message 50 c1Msg c1State).1.messages =
      (handle_buffer_overflow 50 c1State).messages ++ [newRowOf 50 c1Msg c1State] ∧
    (add_message 50 c1Msg c1State).2 = some c1State.next_id ∧
    (∀ r ∈ c1State.messages, r ∉ (handle_buffer_overflow 50 c1State).messages →
      r.status = MessageStatus.completed ∨ r.expire_at < 50) :=
  claim_C1_amended 50 c1Msg c1State (by decide) (by decide)

/-- The `messages` list after a sweep, with the three stages (expire,
delete old completed, delete old expired) spelled out. -/
theorem cleanup_messages (now : Nat) (st : BufferState) :
    (cleanup now st).messages =
      (((st.messages.map fun r =>
          if r.expire_at < now && (r.status = MessageStatus.pending ||
              r.status = MessageStatus.processing)
          then { r with status := MessageStatus.expired } else r).filter fun r =>
        !(r.status = MessageStatus.completed &&
            match r.processed_at with
            | some p => p + 86400 < now
            | none => false)).filter fun r =>
        !(r.status = MessageStatus.expired && r.expire_at + 604800 < now)) := rfl

/-- C5 (amended): `mark_completed` moves any matching row to
`completed` regardless of its current status, and `mark_failed`
processes any matching row regardless of status (here: a retryable row
goes back to `pending`); terminal statuses are, however, preserved by
`get_pending_messages`, `reset_processing_messages`, and `cleanup` (the
latter may delete old terminal rows but never re-labels them). -/
theorem claim_C5_amended :
    (∀ (now id : Nat) (st : BufferState) (r : Row), r ∈ st.messages → r.id = id →
        ({ r with status := MessageStatus.completed, processed_at := some now } : Row) ∈
          (mark_completed now id st).1.messages) ∧
    (∀ (now id : Nat) (e : Option String) (st : BufferState) (r : Row),
        st.messages.find? (fun x => x.id = id) = some r →
        r.retry_count + 1 < r.max_retries →
        ({ r with status := MessageStatus.pending, retry_count := r.retry_count + 1, error_message := e } : Row) ∈
          (mark_failed now id e st).1.messages) ∧
    (∀ (now limit : Nat) (src dst : Option String) (st : BufferState) (r : Row),
        (st.messages.map Row.id).Nodup → r ∈ st.messages → isTerminal r.status →
        r ∈ (get_pending_messages now limit src dst st).1.messages) ∧
    (∀ (st : BufferState) (r : Row), r ∈ st.messages → isTerminal r.status →
        r ∈ (reset_processing_messages st).messages) ∧
    (∀ (now : Nat) (st : BufferState) (r : Row), r ∈ st.messages → isTerminal r.status →
        r ∈ (cleanup now st).messages ∨
          (r.status = MessageStatus.completed ∧
            ∃ p, r.processed_at = some p ∧ p + 86400 < now) ∨
          (r.status = MessageStatus.expired ∧ r.expire_at + 604800 < now)) := by
  refine ⟨?_, ?_, ?_, ?_, ?_⟩
  · intro now id st r hr hid
    have h : ((if r.id = id
        then { r with status := MessageStatus.completed, processed_at := some now }
        else r : Row)) ∈ st.messages.map (fun x : Row =>
          if x.id = id then { x with status := MessageStatus.completed, processed_at := some now }
          else x) := List.mem_map_of_mem _ hr
    rw [if_pos hid] at h
    exact h
  · intro now id e st r hfind hlt
    have hnd : ¬ (r.max_retries ≤ r.retry_count + 1) := Nat.not_le.mpr hlt
    have hid : r.id = id := by
      have := List.find?_some hfind
      simpa using this
    have hmem : r ∈ st.messages := List.mem_of_find?_eq_some hfind
    have key : (mark_failed now id e st).1.messages =
        st.messages.map fun x : Row =>
          if x.id = id then
            { x with status := MessageStatus.pending, retry_count := r.retry_count + 1, error_message := e }
          else x := by
      simp only [mark_failed, hfind, if_neg hnd]
    rw [key]
    have h : ((if r.id = id
        then { r with status := MessageStatus.pending, retry_count := r.retry_count + 1, error_message := e }
        else r : Row)) ∈ st.messages.map (fun x : Row =>
          if x.id = id then
            { x with status := MessageStatus.pending, retry_count := r.retry_count + 1, error_message := e }
          else x) := List.mem_map_of_mem _ hmem
    rw [if_pos hid] at h
    exact h
  · intro now limit src dst st r hnodup hr hterm
    have hnot : r.id ∉ (((st.messages.filter fun x =>
        leasable now x && matchesFilter src dst x).insertionSort leaseOrder).take
          limit).map Row.id := by
      intro hmem
      obtain ⟨r2, hr2, hid2⟩ := List.mem_map.mp hmem
      have hr2f := (List.perm_insertionSort leaseOrder _).subset (List.take_subset _ _ hr2)
      obtain ⟨hr2mem, hp⟩ := List.mem_filter.mp hr2f
      have hpend : r2.status = MessageStatus.pending := by
        simp [leasable] at hp
        exact hp.1.1.1
      have heq : r2 = r := List.inj_on_of_nodup_map hnodup hr2mem hr hid2
      rw [heq] at hpend
      rcases hterm with h | h | h <;> rw [h] at hpend <;> exact MessageStatus.noConfusion hpend
    have h : ((if r.id ∈ (((st.messages.filter fun y =>
        leasable now y && matchesFilter src dst y).insertionSort leaseOrder).take
          limit).map Row.id
        then { r with status := MessageStatus.processing } else r : Row)) ∈
        st.messages.map (fun x : Row =>
          if x.id ∈ (((st.messages.filter fun y =>
              leasable now y && matchesFilter src dst y).insertionSort leaseOrder).take
                limit).map Row.id
          then { x with status := MessageStatus.processing } else x) :=
      List.mem_map_of_mem _ hr
    rw [if_neg hnot] at h
    exact h
  · intro st r hr hterm
    have hnp : ¬ (r.status = MessageStatus.processing) := by
      rcases hterm with h | h | h <;> rw [h] <;> exact fun hc => MessageStatus.noConfusion hc
    have h : ((if r.status = MessageStatus.processing
        then { r with status := MessageStatus.pending } else r : Row)) ∈
        st.messages.map (fun x : Row =>
          if x.status = MessageStatus.processing then { x with status := MessageStatus.pending }
          else x) := List.mem_map_of_mem _ hr
    rw [if_neg hnp] at h
    exact h
  · intro now st r hr hterm
    have h1 : ((if r.expire_at < now && (r.status = MessageStatus.pending ||
          r.status = MessageStatus.processing)
        then { r with status := MessageStatus.expired } else r : Row)) ∈
        st.messages.map (fun x : Row =>
          if x.expire_at < now && (x.status = MessageStatus.pending ||
              x.status = MessageStatus.processing)
          then { x with status := MessageStatus.expired } else x) :=
      List.mem_map_of_mem _ hr
    have hfix : ¬ ((r.expire_at < now && (r.status = MessageStatus.pending ||
        r.status = MessageStatus.processing)) = true) := by
      rcases hterm with h | h | h <;> simp [h]
    rw [if_neg hfix] at h1
    rcases hterm with hc | hc | hc
    · by_cases hold : ∃ p, r.processed_at = some p ∧ p + 86400 < now
      · exact Or.inr (Or.inl ⟨hc, hold⟩)
      · left
        rw [cleanup_messages]
        have hmatch : (match r.processed_at with
            | some p => decide (p + 86400 < now)
            | none => false) = false := by
          cases hp : r.processed_at with
          | none => rfl
          | some p =>
            by_contra hb
            exact hold ⟨p, hp, of_decide_eq_true (Bool.of_not_eq_false hb)⟩
        refine List.mem_filter.mpr ⟨List.mem_filter.mpr ⟨h1, ?_⟩, ?_⟩
        · simp [hmatch]
        · simp [hc]
    · left
      rw [cleanup_messages]
      refine List.mem_filter.mpr ⟨List.mem_filter.mpr ⟨h1, ?_⟩, ?_⟩
      · simp [hc]
      · simp [hc]
    · by_cases hold : r.expire_at + 604800 < now
      · exact Or.inr (Or.inr ⟨hc, hold⟩)
      · left
        rw [cleanup_messages]
        refine List.mem_filter.mpr ⟨List.mem_filter.mpr ⟨h1, ?_⟩, ?_⟩
        · simp [hc]
        · simp [hc, hold]

/-- C7 (amended): a sweep expires exactly the pending/processing rows
whose `expire_at` is strictly in the past (`expire_at < now`, not `≤`),
adds their number to the `messages_expired` counter, writes no
dead-letter row, deletes completed rows older than one day and expired
rows older than seven days, and leaves every other row unchanged. -/
theorem claim_C7_amended :
    (∀ (now : Nat) (st : BufferState),
        (cleanup now st).stats.messages_expired = st.stats.messages_expired +
          st.messages.countP fun r => decide (r.expire_at < now) && isPendingOrProcessing r) ∧
    (∀ (now : Nat) (st : BufferState),
        (cleanup now st).failed_messages = st.failed_messages) ∧
    (∀ (now : Nat) (st : BufferState) (r : Row), r ∈ st.messages →
        r.expire_at < now →
        (r.status = MessageStatus.pending ∨ r.status = MessageStatus.processing) →
        (({ r with status := MessageStatus.expired } : Row) ∈ (cleanup now st).messages ∨
          r.expire_at + 604800 < now)) ∧
    (∀ (now : Nat) (st : BufferState) (r : Row), r ∈ st.messages →
        r.status = MessageStatus.completed →
        (r ∈ (cleanup now st).messages ↔
          ¬ ∃ p, r.processed_at = some p ∧ p + 86400 < now)) ∧
    (∀ (now : Nat) (st : BufferState) (r : Row), r ∈ st.messages →
        r.status = MessageStatus.expired →
        (r ∈ (cleanup now st).messages ↔ ¬ r.expire_at + 604800 < now)) ∧
    (∀ (now : Nat) (st : BufferState) (r : Row), r ∈ st.messages →
        r.status = MessageStatus.failed → r ∈ (cleanup now st).messages) ∧
    (∀ (now : Nat) (st : BufferState) (r : Row), r ∈ st.messages →
        (r.status = MessageStatus.pending ∨ r.status = MessageStatus.processing) →
        ¬ (r.expire_at < now) → r ∈ (cleanup now st).messages) := by
  have mem1 : ∀ (now : Nat) (st : BufferState) (r : Row), r ∈ st.messages →
      ((if r.expire_at < now && (r.status = MessageStatus.pending ||
          r.status = MessageStatus.processing)
        then { r with status := MessageStatus.expired } else r : Row)) ∈
        st.messages.map (fun x : Row =>
          if x.expire_at < now && (x.status = MessageStatus.pending ||
              x.status = MessageStatus.processing)
          then { x with status := MessageStatus.expired } else x) :=
    fun now st r hr => List.mem_map_of_mem _ hr
  refine ⟨fun now st => rfl, fun now st => rfl, ?_, ?_, ?_, ?_, ?_⟩
  · intro now st r hr hexp hpp
    by_cases hold : r.expire_at + 604800 < now
    · exact Or.inr hold
    · left
      rw [cleanup_messages]
      have h1 := mem1 now st r hr
      rw [if_pos (by rcases hpp with h | h <;> simp [h, hexp])] at h1
      refine List.mem_filter.mpr ⟨List.mem_filter.mpr ⟨h1, ?_⟩, ?_⟩
      · simp
      · simp [hold]
  · intro now st r hr hc
    have h1 := mem1 now st r hr
    rw [if_neg (by simp [hc])] at h1
    rw [cleanup_messages]
    constructor
    · intro hin
      have hkeep := (List.mem_filter.mp (List.mem_filter.mp hin).1).2
      intro hex
      obtain ⟨p, hp, hlt⟩ := hex
      rw [hc, hp] at hkeep
      simp [hlt] at hkeep
    · intro hold
      have hmatch : (match r.processed_at with
          | some p => decide (p + 86400 < now)
          | none => false) = false := by
        cases hp : r.processed_at with
        | none => rfl
        | some p =>
          by_contra hb
          exact hold ⟨p, hp, of_decide_eq_true (Bool.of_not_eq_false hb)⟩
      refine List.mem_filter.mpr ⟨List.mem_filter.mpr ⟨h1, ?_⟩, ?_⟩
      · simp [hmatch]
      · simp [hc]
  · intro now st r hr hc
    have h1 := mem1 now st r hr
    rw [if_neg (by simp [hc])] at h1
    rw [cleanup_messages]
    constructor
    · intro hin
      have hkeep := (List.mem_filter.mp hin).2
      intro hold
      rw [hc] at hkeep
      simp [hold] at hkeep
    · intro hold
      refine List.mem_filter.mpr ⟨List.mem_filter.mpr ⟨h1, ?_⟩, ?_⟩
      · simp [hc]
      · simp [hc, hold]
  · intro now st r hr hc
    have h1 := mem1 now st r hr
    rw [if_neg (by simp [hc])] at h1
    rw [cleanup_messages]
    refine List.mem_filter.mpr ⟨List.mem_filter.mpr ⟨h1, ?_⟩, ?_⟩
    · simp [hc]
    · simp [hc]
  · intro now st r hr hpp hexp
    have h1 := mem1 now st r hr
    rw [if_neg (by simp [hexp])] at h1
    rw [cleanup_messages]
    refine List.mem_filter.mpr ⟨List.mem_filter.mpr ⟨h1, ?_⟩, ?_⟩
    · rcases hpp with h | h <;> simp [h]
    · rcases hpp with h | h <;> simp [h]

/-- C8 (amended): `predict_load` processes each of the next H hours; the
lookup key pairs Python's Monday-0 `weekday()` with the hour, while the
30-day history buckets are keyed by SQLite's Sunday-0 `%w` — the two
conventions never agree on a day (`weekday = (%w + 6) mod 7`), so the
bucket consulted for an hour is the one of the preceding weekday.  When
that (mismatched) key has history, the GROUP BY supplied exactly one
aggregate sample, so the prediction is that 30-day total with σ = 0
(range collapses to [mean, mean]) and confidence `min 90 (50 + 2·1)`;
otherwise the 7-day fallback with confidence 30 applies. -/
theorem claim_C8_amended :
    (∀ (now H : Nat) (history : List Nat),
        predict_load now H history = (List.range H).map (predictOne now history)) ∧
    (∀ (now : Nat) (history : List Nat) (offset : Nat),
        (pyWeekday (now + offset), hourOfDay (now + offset)) ∈ bucketKeys now history →
        predictOne now history offset =
          { time := now + offset
            predicted_messages :=
              bucketCount now history (pyWeekday (now + offset), hourOfDay (now + offset))
            confidence := min 90 (50 + 1 * 2)
            range_min :=
              bucketCount now history (pyWeekday (now + offset), hourOfDay (now + offset))
            range_max :=
              bucketCount now history (pyWeekday (now + offset), hourOfDay (now + offset)) }) ∧
    (∀ (now : Nat) (history : List Nat) (offset : Nat),
        (pyWeekday (now + offset), hourOfDay (now + offset)) ∉ bucketKeys now history →
        predictOne now history offset = fallback_prediction now history (now + offset)) ∧
    (∀ t : Nat, pyWeekday t = (sqlDow t + 6) % 7) ∧
    (∀ (now : Nat) (history : List Nat) (k : Nat × Nat),
        k ∈ bucketKeys now history ↔
          ∃ h, h ∈ historyWindow now history ∧ (sqlDow h, hourOfDay h) = k) := by
  refine ⟨fun now H history => rfl, ?_, ?_, ?_, ?_⟩
  · intro now history offset hmem
    simp only [predictOne]
    rw [if_pos hmem]
    simp
  · intro now history offset hmem
    simp only [predictOne]
    rw [if_neg hmem]
  · intro t
    unfold pyWeekday sqlDow
    omega
  · intro now history k
    simp [bucketKeys, List.mem_dedup, List.mem_map]

/-- C4: `get_pending_messages` leases exactly a prefix of the qualifying
rows — each returned message comes from a stored row that is `pending`,
unexpired and retryable and passes the optional source/destination
filter; at most `limit` are returned; the leased rows are ordered by
priority descending then `created_at` ascending; exactly those rows are
flipped to `processing` in the store; and a qualifying row is only left
out when the batch is already at `limit`. -/
theorem claim_C4 (now limit : Nat) (src dst : Option String) (st : BufferState) :
    ∃ sel : List Row,
      (get_pending_messages now limit src dst st).2 = sel.map row_to_message ∧
      sel.length ≤ limit ∧
      (∀ r ∈ sel, r ∈ st.messages ∧ r.status = MessageStatus.pending ∧
        now < r.expire_at ∧ r.retry_count < r.max_retries ∧
        matchesFilter src dst r = true) ∧
      List.Sorted leaseOrder sel ∧
      (get_pending_messages now limit src dst st).1.messages =
        st.messages.map (fun x => if x.id ∈ sel.map Row.id
          then { x with status := MessageStatus.processing } else x) ∧
      (∀ r ∈ st.messages, r.status = MessageStatus.pending → now < r.expire_at →
        r.retry_count < r.max_retries → matchesFilter src dst r = true →
        r ∈ sel ∨ sel.length = limit) := by
  refine ⟨((st.messages.filter fun x =>
      leasable now x && matchesFilter src dst x).insertionSort leaseOrder).take limit,
    rfl, ?_, ?_, ?_, rfl, ?_⟩
  · rw [List.length_take]
    exact Nat.min_le_left _ _
  · intro r hrsel
    have hsort := List.take_subset limit _ hrsel
    have hfil := (List.perm_insertionSort leaseOrder _).subset hsort
    obtain ⟨hmem, hp⟩ := List.mem_filter.mp hfil
    have hp2 := hp
    simp [leasable] at hp2
    exact ⟨hmem, hp2.1.1.1, hp2.1.1.2, hp2.1.2, hp2.2⟩
  · exact List.Pairwise.sublist (List.take_sublist _ _)
      (List.sorted_insertionSort leaseOrder _)
  · intro r hr hpend hexp hretry hmatch
    have hfil : r ∈ st.messages.filter fun x =>
        leasable now x && matchesFilter src dst x :=
      List.mem_filter.mpr ⟨hr, by simp [leasable, hpend, hexp, hretry, hmatch]⟩
    have hsort : r ∈ (st.messages.filter fun x =>
        leasable now x && matchesFilter src dst x).insertionSort leaseOrder :=
      (List.perm_insertionSort leaseOrder _).mem_iff.mpr hfil
    by_cases htake : r ∈ ((st.messages.filter fun x =>
        leasable now x && matchesFilter src dst x).insertionSort leaseOrder).take limit
    · exact Or.inl htake
    · right
      have hlen : limit < ((st.messages.filter fun x =>
          leasable now x && matchesFilter src dst x).insertionSort leaseOrder).length := by
        by_contra hle
        push_neg at hle
        rw [List.take_of_length_le hle] at htake
        exact htake hsort
      rw [List.length_take]
      exact Nat.min_eq_left (Nat.le_of_lt hlen)

/-! ### Decimal digits: printing and re-parsing -/

/-- `decDigit` produces the expected code point. -/
theorem decDigit_toNat (d : Nat) (hd : d < 10) : (decDigit d).toNat = 48 + d := by
  interval_cases d <;> decide

/-- `decDigit` produces a digit character. -/
theorem isDigitCh_decDigit (d : Nat) (hd : d < 10) : isDigitCh (decDigit d) = true := by
  interval_cases d <;> decide

/-- `digitVal` inverts `decDigit`. -/
theorem digitVal_decDigit (d : Nat) (hd : d < 10) : digitVal (decDigit d) = d := by
  interval_cases d <;> decide

/-- Every character `natDigitsGo` emits is a digit. -/
theorem natDigitsGo_all_digits : ∀ f n, ∀ c ∈ natDigitsGo f n, isDigitCh c = true := by
  intro f
  induction f with
  | zero => intro n c hc; simp [natDigitsGo] at hc
  | succ f ih =>
    intro n c hc
    rw [natDigitsGo] at hc
    by_cases h0 : n = 0
    · simp [h0] at hc
    · rw [if_neg h0] at hc
      rcases List.mem_append.mp hc with h | h
      · exact ih (n / 10) c h
      · have hce : c = decDigit (n % 10) := by simpa using h
        rw [hce]
        exact isDigitCh_decDigit _ (Nat.mod_lt _ (by norm_num))

/-- Every character of `natDigits n` is a digit. -/
theorem natDigits_all_digits (n : Nat) : ∀ c ∈ natDigits n, isDigitCh c = true := by
  intro c hc
  unfold natDigits at hc
  by_cases h0 : n = 0
  · rw [if_pos h0] at hc
    simp at hc
    rw [hc]
    decide
  · rw [if_neg h0] at hc
    exact natDigitsGo_all_digits n n c hc

/-- Folding the digit characters back recovers the number (with an
arbitrary accumulator). -/
theorem parseNat_go : ∀ f n acc, n ≤ f →
    List.foldl (fun a c => a * 10 + digitVal c) acc (natDigitsGo f n) =
      acc * 10 ^ (natDigitsGo f n).length + n := by
  intro f
  induction f with
  | zero =>
    intro n acc hn
    interval_cases n
    simp [natDigitsGo]
  | succ f ih =>
    intro n acc hn
    rw [natDigitsGo]
    by_cases h0 : n = 0
    · simp [h0]
    · rw [if_neg h0]
      rw [List.foldl_append]
      rw [ih (n / 10) acc (by omega)]
      have hd : digitVal (decDigit (n % 10)) = n % 10 :=
        digitVal_decDigit _ (Nat.mod_lt _ (by norm_num))
      simp only [List.foldl_cons, List.foldl_nil, List.length_append, List.length_cons,
        List.length_nil, hd]
      rw [pow_succ]
      have := Nat.div_add_mod n 10
      ring_nf
      omega

/-- `parseNatDigits` inverts `natDigits`. -/
theorem parseNatDigits_natDigits (n : Nat) : parseNatDigits (natDigits n) = n := by
  unfold parseNatDigits natDigits
  by_cases h0 : n = 0
  · rw [if_pos h0, h0]
    rfl
  · rw [if_neg h0]
    simpa using parseNat_go n n 0 le_rfl

/-- Leading zero characters do not change the parsed value. -/
theorem parseNatDigits_replicate_zero (k : Nat) (ds : List Char) :
    parseNatDigits (List.replicate k '0' ++ ds) = parseNatDigits ds := by
  induction k with
  | zero => rfl
  | succ k ih =>
    rw [List.replicate_succ, List.cons_append]
    exact ih

/-- `natDigits` is never empty. -/
theorem natDigits_head_digit (n : Nat) :
    ∃ c cs, natDigits n = c :: cs ∧ isDigitCh c = true := by
  unfold natDigits
  by_cases h0 : n = 0
  · exact ⟨'0', [], by rw [if_pos h0], by decide⟩
  · rw [if_neg h0]
    have hne : natDigitsGo n n ≠ [] := by
      have hpos : 0 < n := Nat.pos_of_ne_zero h0
      cases hn : n with
      | zero => omega
      | succ k =>
        rw [natDigitsGo]
        rw [if_neg (by omega)]
        simp
    cases hg : natDigitsGo n n with
    | nil => exact absurd hg hne
    | cons c cs =>
      exact ⟨c, cs, rfl, natDigitsGo_all_digits n n c (by rw [hg]; simp)⟩

/-- For positive `n` the leading digit of `natDigits n` is not `'0'`. -/
theorem natDigitsGo_head : ∀ f n, 0 < n → n ≤ f →
    ∃ c cs, natDigitsGo f n = c :: cs ∧ isDigitCh c = true ∧ c ≠ '0' := by
  intro f
  induction f with
  | zero => intro n h0 hn; omega
  | succ f ih =>
    intro n h0 hn
    rw [natDigitsGo, if_neg (by omega)]
    by_cases h10 : n < 10
    · have hdiv : n / 10 = 0 := Nat.div_eq_of_lt h10
      have hgo : natDigitsGo f (n / 10) = [] := by
        rw [hdiv]
        cases f <;> simp [natDigitsGo]
      rw [hgo, List.nil_append]
      refine ⟨decDigit (n % 10), [], rfl,
        isDigitCh_decDigit _ (Nat.mod_lt _ (by norm_num)), ?_⟩
      have hmod : n % 10 = n := Nat.mod_eq_of_lt h10
      rw [hmod]
      interval_cases n <;> decide
    · obtain ⟨c, cs, hgo, hdig, hne⟩ := ih (n / 10) (by omega) (by omega)
      exact ⟨c, cs ++ [decDigit (n % 10)], by rw [hgo]; rfl, hdig, hne⟩

/-- For positive `n`, `natDigits n` starts with a nonzero digit. -/
theorem natDigits_head (n : Nat) (h0 : 0 < n) :
    ∃ c cs, natDigits n = c :: cs ∧ isDigitCh c = true ∧ c ≠ '0' := by
  unfold natDigits
  rw [if_neg (by omega)]
  exact natDigitsGo_head n n h0 le_rfl

/-- `takeDigits` splits a digit run from a non-digit continuation. -/
theorem takeDigits_append (ds rest : List Char) (hds : ∀ c ∈ ds, isDigitCh c = true)
    (hrest : nonDigitStart rest) : takeDigits (ds ++ rest) = (ds, rest) := by
  induction ds with
  | nil =>
    rw [List.nil_append]
    cases rest with
    | nil => rfl
    | cons c r =>
      unfold takeDigits
      rw [if_neg (by simp [nonDigitStart] at hrest; simp [hrest])]
  | cons c ds ih =>
    rw [List.cons_append]
    unfold takeDigits
    rw [if_pos (by simpa using hds c (by simp))]
    rw [ih fun x hx => hds x (by simp [hx])]

/-! ### Character classes, whitespace, literals -/

/-- A digit character is none of the parser's dispatch characters. -/
theorem isDigitCh_ne (c : Char) (h : isDigitCh c = true) :
    c ≠ 'n' ∧ c ≠ 't' ∧ c ≠ 'f' ∧ c ≠ 'N' ∧ c ≠ 'I' ∧ c ≠ '"' ∧ c ≠ '-' := by
  refine ⟨?_, ?_, ?_, ?_, ?_, ?_, ?_⟩ <;>
    · intro he
      rw [he] at h
      exact absurd h (by decide)

/-- A digit character is not whitespace. -/
theorem isDigitCh_not_ws (c : Char) (h : isDigitCh c = true) : isWs c = false := by
  have h48 : 48 ≤ c.toNat ∧ c.toNat ≤ 57 := by simpa [isDigitCh] using h
  have ne1 : ¬ (c = ' ') := fun he => by rw [he] at h48; exact absurd h48 (by decide)
  have ne2 : ¬ (c = '\t') := fun he => by rw [he] at h48; exact absurd h48 (by decide)
  have ne3 : ¬ (c = '\n') := fun he => by rw [he] at h48; exact absurd h48 (by decide)
  have ne4 : ¬ (c = '\r') := fun he => by rw [he] at h48; exact absurd h48 (by decide)
  simp [isWs, ne1, ne2, ne3, ne4]

/-- A value-start character is not whitespace. -/
theorem valStart_not_ws (c : Char) (h : valStart c = true) : isWs c = false := by
  simp only [valStart, Bool.or_eq_true, decide_eq_true_eq, or_assoc] at h
  rcases h with h | h | h | h | h | h | h | h | h | h
  all_goals first
    | exact isDigitCh_not_ws c h
    | (rw [h]; decide)

/-- A value-start character is not a closing bracket, closing brace,
comma or colon. -/
theorem valStart_ne (c : Char) (h : valStart c = true) :
    c ≠ ']' ∧ c ≠ '\x7d' ∧ c ≠ ',' ∧ c ≠ ':' := by
  simp only [valStart, Bool.or_eq_true, decide_eq_true_eq, or_assoc] at h
  refine ⟨?_, ?_, ?_, ?_⟩ <;> intro he <;> subst he <;>
    rcases h with h | h | h | h | h | h | h | h | h | h <;>
      exact absurd h (by decide)

/-- `skipWs` does not consume a non-whitespace head. -/
theorem skipWs_not_ws (c : Char) (cs : List Char) (h : isWs c = false) :
    skipWs (c :: cs) = c :: cs := by
  show (if isWs c then skipWs cs else c :: cs) = c :: cs
  rw [if_neg (by simp [h])]

/-- `skipWs` consumes a single space. -/
theorem skipWs_space (cs : List Char) : skipWs (' ' :: cs) = skipWs cs := by
  show (if isWs ' ' then skipWs cs else ' ' :: cs) = skipWs cs
  rw [if_pos (by decide)]

/-- `dropLit` consumes exactly its literal. -/
theorem dropLit_append (ls rest : List Char) : dropLit ls (ls ++ rest) = some rest := by
  induction ls with
  | nil => rfl
  | cons l ls ih =>
    rw [List.cons_append]
    unfold dropLit
    rw [if_pos rfl]
    exact ih

/-! ### Number parsing round-trip -/

/-- Decompose `restOk` at a cons. -/
theorem restOk_head (c : Char) (rest : List Char) (h : restOk (c :: rest) = true) :
    isDigitCh c = false ∧ c ≠ '.' ∧ c ≠ 'e' ∧ c ≠ 'E' := by
  simp [restOk] at h
  exact ⟨by simpa using h.1.1.1, h.1.1.2, h.1.2, h.2⟩

/-- `restOk` input does not start with a digit. -/
theorem restOk_nonDigitStart (rest : List Char) (h : restOk rest = true) :
    nonDigitStart rest := by
  cases rest with
  | nil => trivial
  | cons c r => exact (restOk_head c r h).1

/-- With no following fraction/exponent characters the literal is an
integer. -/
theorem parseNumRest_no_frac (neg : Bool) (ids rest : List Char) (h : restOk rest = true) :
    parseNumRest neg ids rest =
      some (.int (if neg then -(parseNatDigits ids : Int) else (parseNatDigits ids : Int)),
        rest) := by
  cases rest with
  | nil => rfl
  | cons c r =>
    obtain ⟨h1, h2, h3, h4⟩ := restOk_head c r h
    show (if c = '.' then
        (fun p => if p.1 = [] then none else parseNumExp neg ids p.1 p.2) (takeDigits r)
      else if c = 'e' ∨ c = 'E' then parseNumExp neg ids [] (c :: r)
      else some (.int (if neg then -(parseNatDigits ids : Int) else (parseNatDigits ids : Int)), c :: r)) = _
    rw [if_neg h2, if_neg (by rintro (he | he); exact h3 he; exact h4 he)]

/-- With no following exponent characters the float is finished with
exponent 0. -/
theorem parseNumExp_no_exp (neg : Bool) (ids fs rest : List Char) (h : restOk rest = true) :
    parseNumExp neg ids fs rest = some (mkNum neg ids fs 0, rest) := by
  cases rest with
  | nil => rfl
  | cons c r =>
    obtain ⟨h1, h2, h3, h4⟩ := restOk_head c r h
    simp only [parseNumExp]
    rw [if_neg (by rintro (he | he); exact h3 he; exact h4 he)]

/-- Parsing the printed digits of `n` (with a safe continuation) yields
the integer `±n`. -/
theorem parseNumAfterSign_digits (neg : Bool) (n : Nat) (rest : List Char)
    (h : restOk rest = true) :
    parseNumAfterSign neg (natDigits n ++ rest) =
      some (.int (if neg then -(n : Int) else (n : Int)), rest) := by
  by_cases h0 : n = 0
  · subst h0
    show parseNumAfterSign neg ('0' :: rest) = _
    show (if '0' = '0' then parseNumRest neg ['0'] rest
      else (fun p => if p.1 = [] then none else parseNumRest neg p.1 p.2)
        (takeDigits ('0' :: rest))) = _
    rw [if_pos rfl]
    rw [parseNumRest_no_frac neg _ rest h]
    rfl
  · obtain ⟨c, cs, hnd, hdig, hne⟩ := natDigits_head n (Nat.pos_of_ne_zero h0)
    rw [hnd, List.cons_append]
    show (if c = '0' then parseNumRest neg ['0'] (cs ++ rest)
      else (fun p => if p.1 = [] then none else parseNumRest neg p.1 p.2)
        (takeDigits (c :: (cs ++ rest)))) = _
    rw [if_neg hne]
    have htd : takeDigits (c :: (cs ++ rest)) = (c :: cs, rest) := by
      have hall : ∀ x ∈ c :: cs, isDigitCh x = true := by
        intro x hx
        exact natDigits_all_digits n x (by rw [hnd]; exact hx)
      have := takeDigits_append (c :: cs) rest hall (restOk_nonDigitStart rest h)
      simpa using this
    rw [htd]
    show (if (c :: cs) = [] then none else parseNumRest neg (c :: cs) rest) = _
    rw [if_neg (by simp)]
    rw [parseNumRest_no_frac neg _ rest h]
    have hv : parseNatDigits (c :: cs) = n := by
      rw [← hnd]
      exact parseNatDigits_natDigits n
    rw [hv]

/-- Decomposition of the float rendering: an all-digit integer part
(either exactly `"0"` or starting with a nonzero digit), a point, and
exactly `e` fraction digits, whose concatenated digits re-parse to the
mantissa. -/
theorem numCharsAbs_spec (m e : Nat) (he : 1 ≤ e) :
    ∃ ip fp : List Char,
      numCharsAbs m e = ip ++ '.' :: fp ∧
      (∀ c ∈ ip, isDigitCh c = true) ∧
      (∀ c ∈ fp, isDigitCh c = true) ∧
      fp.length = e ∧
      parseNatDigits (ip ++ fp) = m ∧
      (ip = ['0'] ∨ ∃ c cs, ip = c :: cs ∧ isDigitCh c = true ∧ c ≠ '0') := by
  have hdsne : natDigits m ≠ [] := by
    obtain ⟨c, cs, hc, _⟩ := natDigits_head_digit m
    rw [hc]
    simp
  have hds1 : 1 ≤ (natDigits m).length := List.length_pos.mpr hdsne
  set ds := natDigits m with hds
  set k := e + 1 - ds.length with hk
  set padded := List.replicate k '0' ++ ds with hpad
  have hlen : padded.length = k + ds.length := by simp [hpad]
  have hLe : e < padded.length := by omega
  have hpdig : ∀ c ∈ padded, isDigitCh c = true := by
    intro c hc
    rcases List.mem_append.mp hc with h | h
    · rw [List.eq_of_mem_replicate h]
      decide
    · exact natDigits_all_digits m c h
  refine ⟨padded.take (padded.length - e), padded.drop (padded.length - e),
    ?_, ?_, ?_, ?_, ?_, ?_⟩
  · unfold numCharsAbs
    rw [if_neg (by omega)]
  · intro c hc
    exact hpdig c (List.take_subset _ _ hc)
  · intro c hc
    exact hpdig c (List.drop_subset _ _ hc)
  · rw [List.length_drop]
    omega
  · rw [List.take_append_drop, hpad]
    rw [parseNatDigits_replicate_zero]
    exact parseNatDigits_natDigits m
  · by_cases hk0 : k = 0
    · right
      have hm : 0 < m := by
        by_contra hm0
        push_neg at hm0
        interval_cases m
        have hds0 : ds.length = 1 := by rw [hds]; rfl
        omega
      obtain ⟨c, cs, hnd, hdig, hne⟩ := natDigits_head m hm
      have hpds : padded = c :: cs := by
        rw [hpad, hk0]
        simpa using hnd
      have htake : padded.take (padded.length - e) =
          c :: cs.take (padded.length - e - 1) := by
        have hlt : e < (c :: cs).length := by
          rw [← hpds]
          exact hLe
        rw [hpds]
        conv_lhs => rw [show (c :: cs).length - e = ((c :: cs).length - e - 1) + 1 from by omega]
        rw [List.take_succ_cons]
      exact ⟨c, cs.take (padded.length - e - 1), htake, hdig, hne⟩
    · left
      have hL1 : padded.length = e + 1 := by omega
      have h1 : padded.length - e = 1 := by omega
      obtain ⟨k2, hk2⟩ : ∃ k2, k = k2 + 1 := ⟨k - 1, by omega⟩
      have hpds : padded = '0' :: (List.replicate k2 '0' ++ ds) := by
        rw [hpad, hk2, List.replicate_succ, List.cons_append]
      rw [h1, hpds, List.take_succ_cons, List.take_zero]

/-- The float rendering starts with a digit. -/
theorem numCharsAbs_head (m e : Nat) :
    ∃ c cs, numCharsAbs m e = c :: cs ∧ isDigitCh c = true := by
  by_cases he : e = 0
  · subst he
    unfold numCharsAbs
    rw [if_pos rfl]
    obtain ⟨c, cs, hnd, hdig⟩ := natDigits_head_digit m
    exact ⟨c, cs ++ ['.', '0'], by rw [hnd]; rfl, hdig⟩
  · obtain ⟨ip, fp, heq, hipd, _, _, _, hip⟩ := numCharsAbs_spec m e (by omega)
    rcases hip with hip0 | ⟨c, cs, hipc, hcd, _⟩
    · exact ⟨'0', '.' :: fp, by rw [heq, hip0]; rfl, by decide⟩
    · exact ⟨c, cs ++ '.' :: fp, by rw [heq, hipc]; rfl, hcd⟩

/-- Parsing the float rendering (with a safe continuation) yields the
float `± m / 10^e`. -/
theorem parseNumAfterSign_numChars (neg : Bool) (m e : Nat) (rest : List Char)
    (he : 1 ≤ e) (h : restOk rest = true) :
    parseNumAfterSign neg (numCharsAbs m e ++ rest) =
      some (.num (if neg then -(m : Int) else (m : Int)) e, rest) := by
  obtain ⟨ip, fp, heq, hipd, hfpd, hfl, hpn, hip⟩ := numCharsAbs_spec m e he
  have hfne : fp ≠ [] := by
    intro h0
    rw [h0] at hfl
    simp at hfl
    omega
  have htdfp : takeDigits (fp ++ rest) = (fp, rest) :=
    takeDigits_append fp rest hfpd (restOk_nonDigitStart rest h)
  have hmk : mkNum neg ip fp 0 = .num (if neg then -(m : Int) else (m : Int)) e := by
    simp only [mkNum]
    have hc : ¬ ((fp.length : Int) ≤ (0 : Int)) := by
      have h1 : 1 ≤ fp.length := by rw [hfl]; exact he
      omega
    rw [if_neg hc, if_neg hc, hpn]
    simp [hfl]
  rcases hip with hip0 | ⟨c, cs, hipc, hcd, hcne⟩
  · rw [heq, hip0]
    show parseNumAfterSign neg ('0' :: ('.' :: (fp ++ rest))) = _
    simp only [parseNumAfterSign]
    rw [if_pos trivial]
    simp only [parseNumRest]
    rw [if_pos trivial, htdfp]
    simp only []
    rw [if_neg hfne]
    rw [parseNumExp_no_exp neg _ _ rest h]
    rw [hip0] at hmk
    rw [hmk]
  · rw [heq, hipc]
    simp only [List.cons_append, List.append_assoc]
    simp only [parseNumAfterSign]
    rw [if_neg hcne]
    have htd2 : takeDigits (c :: (cs ++ ('.' :: (fp ++ rest)))) =
        (c :: cs, '.' :: (fp ++ rest)) := by
      have hall : ∀ x ∈ c :: cs, isDigitCh x = true := by
        rw [← hipc]
        exact hipd
      have := takeDigits_append (c :: cs) ('.' :: (fp ++ rest)) hall
        (show isDigitCh '.' = false by decide)
      simpa using this
    rw [htd2]
    simp only []
    rw [if_neg (by simp)]
    simp only [parseNumRest]
    rw [if_pos trivial, htdfp]
    simp only []
    rw [if_neg hfne]
    rw [parseNumExp_no_exp neg _ _ rest h]
    rw [hipc] at hmk
    rw [hmk]

/-- C6 (witness): the amended claim at the concrete base buffer with
`n = 3 = max_retries`. -/
theorem claim_C6_witness :
    (failTimes baseRow.id 3 baseState).failed_messages.length =
      3 - (baseRow.max_retries - 1) ∧
    ((failTimes baseRow.id 3 baseState).messages.map Row.status) =
      [if 3 = 0 then baseRow.status
       else if baseRow.max_retries ≤ 3 then MessageStatus.failed else MessageStatus.pending] ∧
    ((failTimes baseRow.id 3 baseState).messages.map Row.retry_count) = [3] ∧
    (3 = baseRow.max_retries → 1 ≤ 3 →
      (failTimes baseRow.id 3 baseState).failed_messages.length = 1) :=
  claim_C6_amended baseRow baseState 3 rfl rfl rfl

/-! ### String literals round-trip -/

/-- A structure-eta fact used to rebuild parsed keys and payload
strings. -/
theorem stringMk_data (s : String) : String.mk s.data = s := rfl

/-- `escChars` always emits at least the closing quote. -/
theorem escChars_length_pos : ∀ cs : List Char, 1 ≤ (escChars cs).length := by
  intro cs
  induction cs with
  | nil => decide
  | cons c cs ih =>
    show 1 ≤ (escChar c ++ escChars cs).length
    rw [List.length_append]
    omega

/-- Parsing an escaped printable-ASCII string literal body recovers the
characters and leaves the continuation. -/
theorem parseStringBody_escChars : ∀ (cs rest : List Char),
    (∀ c ∈ cs, okChar c = true) →
    parseStringBody (escChars cs ++ rest) = some (cs, rest) := by
  intro cs
  induction cs with
  | nil =>
    intro rest _
    show parseStringBody ('"' :: rest) = some ([], rest)
    unfold parseStringBody
    rfl
  | cons c cs ih =>
    intro rest hok
    have hc : okChar c = true := hok c (by simp)
    have hcs : ∀ x ∈ cs, okChar x = true := fun x hx => hok x (by simp [hx])
    unfold escChars
    by_cases h1 : c = '"'
    · subst h1
      show parseStringBody ('\\' :: '"' :: (escChars cs ++ rest)) = some ('"' :: cs, rest)
      unfold parseStringBody
      show (parseStringBody (escChars cs ++ rest)).map (fun p => ('"' :: p.1, p.2)) =
        some ('"' :: cs, rest)
      rw [ih rest hcs]
      rfl
    · by_cases h2 : c = '\\'
      · subst h2
        show parseStringBody ('\\' :: '\\' :: (escChars cs ++ rest)) = some ('\\' :: cs, rest)
        unfold parseStringBody
        show (parseStringBody (escChars cs ++ rest)).map (fun p => ('\\' :: p.1, p.2)) =
          some ('\\' :: cs, rest)
        rw [ih rest hcs]
        rfl
      · have he : escChar c = [c] := by
          unfold escChar
          rw [if_neg h1, if_neg h2]
        have h3 : ¬ (c.toNat < 32) := by
          simp [okChar] at hc
          omega
        rw [he]
        show parseStringBody (c :: (escChars cs ++ rest)) = _
        unfold parseStringBody
        rw [if_neg h1, if_neg h2, if_neg h3, ih rest hcs]
        rfl

/-! ### Serialised values: head characters -/

/-- A well-formed value's serialisation starts with a value-start
character (in particular it is nonempty). -/
theorem dumps_head (v : PyVal) (h : wfVal v = true) :
    ∃ c cs, dumps v = c :: cs ∧ valStart c = true := by
  cases v with
  | null => exact ⟨'n', _, rfl, by decide⟩
  | bool b =>
    cases b with
    | false => exact ⟨'f', _, rfl, by decide⟩
    | true => exact ⟨'t', _, rfl, by decide⟩
  | int n =>
    by_cases hm : n < 0
    · refine ⟨'-', natDigits n.natAbs, ?_, by decide⟩
      show intChars n = _
      unfold intChars
      rw [if_pos hm]
    · obtain ⟨c, cs, hnd, hdig⟩ := natDigits_head_digit n.natAbs
      refine ⟨c, cs, ?_, by simp [valStart, hdig]⟩
      show intChars n = _
      unfold intChars
      rw [if_neg hm, hnd]
  | num m e =>
    obtain ⟨c, cs, hnc, hdig⟩ := numCharsAbs_head m.natAbs e
    by_cases hm : m < 0
    · refine ⟨'-', numCharsAbs m.natAbs e, ?_, by decide⟩
      show (if m < 0 then ['-'] else []) ++ numCharsAbs m.natAbs e = _
      rw [if_pos hm]
      rfl
    · refine ⟨c, cs, ?_, by simp [valStart, hdig]⟩
      show (if m < 0 then ['-'] else []) ++ numCharsAbs m.natAbs e = _
      rw [if_neg hm, List.nil_append, hnc]
  | nan => exact absurd h (by decide)
  | inf b =>
    cases b with
    | false => exact ⟨'I', _, rfl, by decide⟩
    | true => exact ⟨'-', _, rfl, by decide⟩
  | str s => exact ⟨'"', _, rfl, by decide⟩
  | arr xs => exact ⟨'[', _, rfl, by decide⟩
  | obj kvs => exact ⟨'\x7b', _, rfl, by decide⟩

/-! ### Parser dispatch on the head character -/

/-- Dispatch of `parseVal` on a digit head. -/
theorem parseVal_digit (f : Nat) (c : Char) (cs : List Char) (h : isDigitCh c = true) :
    parseVal (f + 1) (c :: cs) = parseNumAfterSign false (c :: cs) := by
  obtain ⟨h1, h2, h3, h4, h5, h6, h7⟩ := isDigitCh_ne c h
  simp only [parseVal]
  rw [if_neg h1, if_neg h2, if_neg h3, if_neg h4, if_neg h5, if_neg h6, if_neg h7, if_pos h]

/-- Dispatch of `parseVal` on a minus sign followed by a non-`Infinity`
tail. -/
theorem parseVal_minus (f : Nat) (c2 : Char) (cs2 : List Char) (h : c2 ≠ 'I') :
    parseVal (f + 1) ('-' :: c2 :: cs2) = parseNumAfterSign true (c2 :: cs2) := by
  show (if c2 = 'I' then
      (dropLit ['n', 'f', 'i', 'n', 'i', 't', 'y'] cs2).map fun r => (PyVal.inf true, r)
    else parseNumAfterSign true (c2 :: cs2)) = _
  rw [if_neg h]

/-- Dispatch of `parseVal` on an opening bracket. -/
theorem parseVal_bracket (f : Nat) (cs : List Char) :
    parseVal (f + 1) ('[' :: cs) =
      (match skipWs cs with
       | [] => none
       | c2 :: r2 =>
         if c2 = ']' then some (.arr .nil, r2)
         else (parseElems f (c2 :: r2)).map fun p => (.arr p.1, p.2)) := rfl

/-- Dispatch of `parseVal` on an opening brace. -/
theorem parseVal_brace (f : Nat) (cs : List Char) :
    parseVal (f + 1) ('\x7b' :: cs) =
      (match skipWs cs with
       | [] => none
       | c2 :: r2 =>
         if c2 = '\x7d' then some (.obj .nil, r2)
         else (parseMembers f (c2 :: r2)).map fun p => (.obj p.1, p.2)) := rfl

/-- Round-trip of the serialiser against the fuel-indexed parser: with
fuel exceeding the serialisation length, a well-formed value's
serialisation followed by a safe continuation parses back to exactly the
value and the continuation (stated simultaneously for values, array
element lists and object member lists). -/
theorem parse_dumps : ∀ f : Nat,
    (∀ v rest, wfVal v = true → restOk rest = true → (dumps v).length < f →
      parseVal f (dumps v ++ rest) = some (v, rest)) ∧
    (∀ x xs rest, wfVal x = true → wfList xs = true → restOk rest = true →
      (dumps x).length + (dumpsArrRest xs).length + 1 < f →
      parseElems f (dumps x ++ (dumpsArrRest xs ++ ']' :: rest)) = some (.cons x xs, rest)) ∧
    (∀ k v kvs rest, okStr k = true → wfVal v = true → wfMembers kvs = true →
      restOk rest = true → (dumpsObj (.cons k v kvs)).length + 1 < f →
      parseMembers f (dumpsObj (.cons k v kvs) ++ '\x7d' :: rest) =
        some (.cons k v kvs, rest)) := by
  intro f
  induction f with
  | zero =>
    exact ⟨fun v rest _ _ h => absurd h (by omega),
      fun x xs rest _ _ _ h => absurd h (by omega),
      fun k v kvs rest _ _ _ _ h => absurd h (by omega)⟩
  | succ f ih =>
    obtain ⟨ihP, ihQ, ihR⟩ := ih
    refine ⟨?_, ?_, ?_⟩
    · intro v rest hwf hrest hlen
      cases v with
      | null => rfl
      | bool b =>
        cases b with
        | false => rfl
        | true => rfl
      | int n =>
        by_cases hm : n < 0
        · have hd : dumps (PyVal.int n) = '-' :: natDigits n.natAbs := by
            simp only [dumps]
            unfold intChars
            rw [if_pos hm]
          obtain ⟨c, cs, hnd, hdig, hne0⟩ := natDigits_head n.natAbs (by omega)
          rw [hd, List.cons_append, hnd, List.cons_append]
          rw [parseVal_minus f c (cs ++ rest) (fun he => by
            rw [he] at hdig
            exact absurd hdig (by decide))]
          rw [← List.cons_append, ← hnd]
          rw [parseNumAfterSign_digits true n.natAbs rest hrest]
          have hval : -((n.natAbs : Int)) = n := by omega
          rw [if_pos rfl, hval]
        · have hd : dumps (PyVal.int n) = natDigits n.natAbs := by
            simp only [dumps]
            unfold intChars
            rw [if_neg hm]
          obtain ⟨c, cs, hnd, hdig⟩ := natDigits_head_digit n.natAbs
          rw [hd, hnd, List.cons_append]
          rw [parseVal_digit f c (cs ++ rest) hdig]
          rw [← List.cons_append, ← hnd]
          rw [parseNumAfterSign_digits false n.natAbs rest hrest]
          have hval : ((n.natAbs : Int)) = n := by omega
          rw [if_neg (by decide), hval]
      | num m e =>
        have he : 1 ≤ e := by
          unfold wfVal at hwf
          exact of_decide_eq_true hwf
        by_cases hm : m < 0
        · have hd : dumps (PyVal.num m e) = '-' :: numCharsAbs m.natAbs e := by
            simp only [dumps]
            rw [if_pos hm]
            rfl
          obtain ⟨c, cs, hnc, hdig⟩ := numCharsAbs_head m.natAbs e
          rw [hd, List.cons_append, hnc, List.cons_append]
          rw [parseVal_minus f c (cs ++ rest) (fun h2 => by
            rw [h2] at hdig
            exact absurd hdig (by decide))]
          rw [← List.cons_append, ← hnc]
          rw [parseNumAfterSign_numChars true m.natAbs e rest he hrest]
          have hval : -((m.natAbs : Int)) = m := by omega
          rw [if_pos rfl, hval]
        · have hd : dumps (PyVal.num m e) = numCharsAbs m.natAbs e := by
            simp only [dumps]
            rw [if_neg hm]
            rfl
          obtain ⟨c, cs, hnc, hdig⟩ := numCharsAbs_head m.natAbs e
          rw [hd, hnc, List.cons_append]
          rw [parseVal_digit f c (cs ++ rest) hdig]
          rw [← List.cons_append, ← hnc]
          rw [parseNumAfterSign_numChars false m.natAbs e rest he hrest]
          have hval : ((m.natAbs : Int)) = m := by omega
          rw [if_neg (by decide), hval]
      | nan => exact absurd hwf (by decide)
      | inf b =>
        cases b with
        | false => rfl
        | true => rfl
      | str s =>
        have hok : ∀ c ∈ s.data, okChar c = true := by
          unfold wfVal at hwf
          simpa [okStr, List.all_eq_true] using hwf
        simp only [dumps, escString, List.cons_append]
        show (parseStringBody (escChars s.data ++ rest)).map
          (fun p => (PyVal.str (String.mk p.1), p.2)) = some (PyVal.str s, rest)
        rw [parseStringBody_escChars s.data rest hok]
        rfl
      | arr xs =>
        cases xs with
        | nil => rfl
        | cons x xs2 =>
          have hwf2 : wfVal x = true ∧ wfList xs2 = true := by
            unfold wfVal wfList at hwf
            simpa [Bool.and_eq_true] using hwf
          obtain ⟨hwx, hwxs⟩ := hwf2
          obtain ⟨c, cs, hd, hvs⟩ := dumps_head x hwx
          have hLa : (dumps x).length + (dumpsArrRest xs2).length + 1 < f := by
            have h2 : (dumps (PyVal.arr (PyList.cons x xs2))).length =
                (dumps x).length + (dumpsArrRest xs2).length + 2 := by
              simp only [dumps, dumpsArr, List.length_cons, List.length_append,
                List.length_nil]
              try omega
            omega
          have hQ := ihQ x xs2 rest hwx hwxs hrest hLa
          simp only [dumps, dumpsArr, List.cons_append, List.append_assoc,
            List.singleton_append, List.nil_append]
          rw [parseVal_bracket]
          have hsw : skipWs (dumps x ++ (dumpsArrRest xs2 ++ ']' :: rest)) =
              c :: (cs ++ (dumpsArrRest xs2 ++ ']' :: rest)) := by
            rw [hd, List.cons_append]
            exact skipWs_not_ws c _ (valStart_not_ws c hvs)
          rw [hsw]
          show (if c = ']' then
              some (PyVal.arr PyList.nil, cs ++ (dumpsArrRest xs2 ++ ']' :: rest))
            else (parseElems f (c :: (cs ++ (dumpsArrRest xs2 ++ ']' :: rest)))).map
              fun p => (PyVal.arr p.1, p.2)) = some (PyVal.arr (PyList.cons x xs2), rest)
          rw [if_neg (valStart_ne c hvs).1, ← List.cons_append, ← hd, hQ]
          rfl
      | obj kvs =>
        cases kvs with
        | nil => rfl
        | cons k v2 kvs2 =>
          have hwf2 : (okStr k = true ∧ wfVal v2 = true) ∧ wfMembers kvs2 = true := by
            unfold wfVal wfMembers at hwf
            simpa [Bool.and_eq_true] using hwf
          obtain ⟨⟨hk, hv⟩, hkvs⟩ := hwf2
          have hLo : (dumpsObj (PyMembers.cons k v2 kvs2)).length + 1 < f := by
            have h2 : (dumps (PyVal.obj (PyMembers.cons k v2 kvs2))).length =
                (dumpsObj (PyMembers.cons k v2 kvs2)).length + 2 := by
              simp only [dumps, List.length_cons, List.length_append, List.length_nil]
              try omega
            omega
          have hR := ihR k v2 kvs2 rest hk hv hkvs hrest hLo
          simp only [dumps, List.cons_append, List.append_assoc, List.singleton_append,
            List.nil_append]
          rw [parseVal_brace]
          have hob : dumpsObj (PyMembers.cons k v2 kvs2) ++ '\x7d' :: rest =
              '"' :: (escChars k.data ++
                (':' :: ' ' :: (dumps v2 ++ (dumpsObjRest kvs2 ++ '\x7d' :: rest)))) := by
            simp only [dumpsObj, escString, List.cons_append, List.append_assoc]
          rw [hob, skipWs_not_ws '"' _ (by decide)]
          show (if ('"' : Char) = '\x7d' then
              some (PyVal.obj PyMembers.nil, escChars k.data ++
                (':' :: ' ' :: (dumps v2 ++ (dumpsObjRest kvs2 ++ '\x7d' :: rest))))
            else (parseMembers f ('"' :: (escChars k.data ++
                (':' :: ' ' :: (dumps v2 ++ (dumpsObjRest kvs2 ++ '\x7d' :: rest)))))).map
              fun p => (PyVal.obj p.1, p.2)) =
            some (PyVal.obj (PyMembers.cons k v2 kvs2), rest)
          rw [if_neg (by decide), ← hob, hR]
          rfl
    · intro x xs rest hwx hwxs hrest hfuel
      cases xs with
      | nil =>
        have hz : (dumpsArrRest PyList.nil).length = 0 := rfl
        have h1 : parseVal f (dumps x ++ ']' :: rest) = some (x, ']' :: rest) :=
          ihP x (']' :: rest) hwx (by rfl) (by omega)
        have h2 : skipWs (']' :: rest) = ']' :: rest := skipWs_not_ws _ _ (by decide)
        simp only [dumpsArrRest, List.nil_append, parseElems, h1, h2]
      | cons y ys =>
        have hw2 : wfVal y = true ∧ wfList ys = true := by
          unfold wfList at hwxs
          simpa [Bool.and_eq_true] using hwxs
        obtain ⟨hwy, hwys⟩ := hw2
        have hLr : (dumpsArrRest (PyList.cons y ys)).length =
            (dumps y).length + (dumpsArrRest ys).length + 2 := by
          simp only [dumpsArrRest, List.length_cons, List.length_append]
          try omega
        have h1 : parseVal f
            (dumps x ++ (',' :: ' ' :: (dumps y ++ (dumpsArrRest ys ++ ']' :: rest)))) =
            some (x, ',' :: ' ' :: (dumps y ++ (dumpsArrRest ys ++ ']' :: rest))) :=
          ihP x _ hwx (by rfl) (by omega)
        have h4 : skipWs (',' :: ' ' :: (dumps y ++ (dumpsArrRest ys ++ ']' :: rest))) =
            ',' :: ' ' :: (dumps y ++ (dumpsArrRest ys ++ ']' :: rest)) :=
          skipWs_not_ws _ _ (by decide)
        obtain ⟨c, cs, hd, hvs⟩ := dumps_head y hwy
        have h3 : skipWs (' ' :: (dumps y ++ (dumpsArrRest ys ++ ']' :: rest))) =
            dumps y ++ (dumpsArrRest ys ++ ']' :: rest) := by
          rw [skipWs_space, hd, List.cons_append]
          exact skipWs_not_ws c _ (valStart_not_ws c hvs)
        have hQ := ihQ y ys rest hwy hwys hrest (by omega)
        simp only [dumpsArrRest, List.cons_append, List.append_assoc, parseElems,
          h1, h4, h3, hQ, Option.map_some']
    · intro k v kvs rest hok hwv hwkvs hrest hfuel
      have hokl : ∀ c ∈ k.data, okChar c = true := by
        simpa [okStr, List.all_eq_true] using hok
      have hE : 1 ≤ (escChars k.data).length := escChars_length_pos k.data
      have hLo : (dumpsObj (PyMembers.cons k v kvs)).length =
          (escChars k.data).length + (dumps v).length + (dumpsObjRest kvs).length + 3 := by
        simp only [dumpsObj, escString, List.length_cons, List.length_append]
        omega
      have h1 : parseStringBody (escChars k.data ++
          (':' :: ' ' :: (dumps v ++ (dumpsObjRest kvs ++ '\x7d' :: rest)))) =
          some (k.data, ':' :: ' ' :: (dumps v ++ (dumpsObjRest kvs ++ '\x7d' :: rest))) :=
        parseStringBody_escChars k.data _ hokl
      have h2 : skipWs (':' :: ' ' :: (dumps v ++ (dumpsObjRest kvs ++ '\x7d' :: rest))) =
          ':' :: ' ' :: (dumps v ++ (dumpsObjRest kvs ++ '\x7d' :: rest)) :=
        skipWs_not_ws _ _ (by decide)
      obtain ⟨c, cs, hd, hvs⟩ := dumps_head v hwv
      have h3 : skipWs (' ' :: (dumps v ++ (dumpsObjRest kvs ++ '\x7d' :: rest))) =
          dumps v ++ (dumpsObjRest kvs ++ '\x7d' :: rest) := by
        rw [skipWs_space, hd, List.cons_append]
        exact skipWs_not_ws c _ (valStart_not_ws c hvs)
      have hrest2 : restOk (dumpsObjRest kvs ++ '\x7d' :: rest) = true := by
        cases kvs with
        | nil => rfl
        | cons a b c2 =>
          simp only [dumpsObjRest, List.cons_append]
          rfl
      have h4 : parseVal f (dumps v ++ (dumpsObjRest kvs ++ '\x7d' :: rest)) =
          some (v, dumpsObjRest kvs ++ '\x7d' :: rest) :=
        ihP v _ hwv hrest2 (by omega)
      cases kvs with
      | nil =>
        have h5 : skipWs ('\x7d' :: rest) = '\x7d' :: rest := skipWs_not_ws _ _ (by decide)
        have hz : (dumpsObjRest PyMembers.nil) = [] := rfl
        rw [hz, List.nil_append] at h1 h2 h3 h4
        simp only [dumpsObj, dumpsObjRest, escString, List.cons_append, List.append_assoc,
          List.nil_append, parseMembers, h1, h2, h3, h4, h5, stringMk_data]
      | cons k2 v2 kvs2 =>
        have hw2 : (okStr k2 = true ∧ wfVal v2 = true) ∧ wfMembers kvs2 = true := by
          unfold wfMembers at hwkvs
          simpa [Bool.and_eq_true] using hwkvs
        obtain ⟨⟨hk2, hv2⟩, hkvs2⟩ := hw2
        have hE2 : 1 ≤ (escChars k2.data).length := escChars_length_pos k2.data
        have hLo2 : (dumpsObjRest (PyMembers.cons k2 v2 kvs2)).length =
            (dumpsObj (PyMembers.cons k2 v2 kvs2)).length + 2 := by
          simp only [dumpsObjRest, dumpsObj, List.length_cons, List.length_append]
          try omega
        have h6 := ihR k2 v2 kvs2 rest hk2 hv2 hkvs2 hrest (by omega)
        have h7 : skipWs (' ' :: (dumpsObj (PyMembers.cons k2 v2 kvs2) ++ '\x7d' :: rest)) =
            dumpsObj (PyMembers.cons k2 v2 kvs2) ++ '\x7d' :: rest := by
          rw [skipWs_space]
          have hob : dumpsObj (PyMembers.cons k2 v2 kvs2) ++ '\x7d' :: rest =
              '"' :: (escChars k2.data ++
                (':' :: ' ' :: (dumps v2 ++ (dumpsObjRest kvs2 ++ '\x7d' :: rest)))) := by
            simp only [dumpsObj, escString, List.cons_append, List.append_assoc]
          rw [hob]
          exact skipWs_not_ws _ _ (by decide)
        simp only [dumpsObjRest, dumpsObj, escString, List.cons_append, List.append_assoc] at h1 h2 h3 h4 h6 h7 ⊢
        have h8 : skipWs (',' :: ' ' :: ('"' :: (escChars k2.data ++
            (':' :: ' ' :: (dumps v2 ++ (dumpsObjRest kvs2 ++ '\x7d' :: rest)))))) =
            ',' :: ' ' :: ('"' :: (escChars k2.data ++
            (':' :: ' ' :: (dumps v2 ++ (dumpsObjRest kvs2 ++ '\x7d' :: rest))))) :=
          skipWs_not_ws _ _ (by decide)
        simp only [parseMembers, h1, h2, h3, h4, h6, h7, h8, stringMk_data,
          Option.map_some']

/-- `json.loads` recovers any well-formed value from its `json.dumps`
text. -/
theorem loads_dumpsStr (v : PyVal) (h : wfVal v = true) : loads (dumpsStr v) = some v := by
  obtain ⟨c, cs, hd, hvs⟩ := dumps_head v h
  have hdat : (dumpsStr v).data = dumps v := rfl
  have hsw : skipWs (dumps v) = dumps v := by
    rw [hd]
    exact skipWs_not_ws c cs (valStart_not_ws c hvs)
  have hP := (parse_dumps ((dumps v).length + 1)).1 v [] h (by rfl) (by omega)
  rw [List.append_nil] at hP
  simp only [loads, hdat, hsw, hP]
  rfl

/-- The serialised text of a well-formed value is never the empty
string (so `_row_to_message` never hits its empty-TEXT branch for a
JSON-encoded payload). -/
theorem dumpsStr_ne_empty (v : PyVal) (h : wfVal v = true) : dumpsStr v ≠ "" := by
  obtain ⟨c, cs, hd, _⟩ := dumps_head v h
  intro h0
  have h1 : (dumpsStr v).data = [] := by
    rw [h0]
  have h2 : (dumpsStr v).data = dumps v := rfl
  rw [h2, hd] at h1
  cases h1

/-- C3, amended: the value column round-trips through `encode_value`
(line 217) and `decode_value` (lines 541-544) exactly as the code's
asymmetric string handling dictates: a well-formed non-string payload
(any `Boolean`, `Int32`, exact-decimal `Float`/`Double`, printable-ASCII
`JSON` value) is JSON-encoded and decodes back to itself; a string
payload is stored raw, so it survives only when it is nonempty and not
itself parseable as JSON -- a JSON-parseable string decodes to the
parsed value instead, and the empty string decodes to `None`. -/
theorem claim_C3_amended :
    (∀ v : PyVal, wfVal v = true → (∀ s, v ≠ PyVal.str s) →
      decode_value (encode_value v) = v) ∧
    (∀ s : String, s ≠ "" → loads s = none →
      decode_value (encode_value (PyVal.str s)) = PyVal.str s) ∧
    (∀ (s : String) (w : PyVal), s ≠ "" → loads s = some w →
      decode_value (encode_value (PyVal.str s)) = w) ∧
    decode_value (encode_value (PyVal.str "")) = PyVal.null := by
  refine ⟨?_, ?_, ?_, rfl⟩
  · intro v hwf hns
    have henc : encode_value v = dumpsStr v := by
      cases v with
      | str s => exact absurd rfl (hns s)
      | null => rfl
      | bool b => rfl
      | int n => rfl
      | num m e => rfl
      | nan => rfl
      | inf b => rfl
      | arr xs => rfl
      | obj kvs => rfl
    rw [henc]
    unfold decode_value
    rw [if_neg (dumpsStr_ne_empty v hwf), loads_dumpsStr v hwf]
  · intro s hne hl
    show decode_value s = PyVal.str s
    unfold decode_value
    rw [if_neg hne, hl]
  · intro s w hne hl
    show decode_value s = w
    unfold decode_value
    rw [if_neg hne, hl]

end Bridge
